import Mathlib

/-!
Verification of the routing / graph-damage core of the `algoritmalar_proje`
repository (`src/core/algorithms.py`, `src/core/data_manager.py`).

Modelling conventions (shallow embedding):
* Python floats that carry edge costs are modelled as `WithTop ℚ`
  (`⊤` stands for `float('inf')`; all costs appearing in the data are
  finite rationals, and the code only ever produces `inf` via
  `float('inf')` literals, so this is exact for the fragment used).
* The mutable `networkx` multigraph is modelled as a `Graph` structure
  holding an edge-record list; in-place attribute mutation becomes a
  functional update of the record list.
* Geometry-dependent distances (shapely `nearest_points` composed with
  the transcendental haversine formula) are abstracted as distance
  oracles passed explicitly to the damage operations; the oracle value
  stands for the number the Python code computes for a given record.
* The A* heuristic `math.hypot(dx, dy) * 111000` is an irrational real.
  Wherever the code only *compares* heuristic values (the fallback-target
  `min(visited, key=...)`), we use the squared Euclidean distance
  `heurSq`, which induces exactly the same comparisons because
  `x ↦ sqrt x * 111000` is strictly monotone.  Where A* *adds* heuristic
  values to path costs, the heuristic is abstracted as an explicit
  function parameter `pot`.
-/

namespace RouteCore

/-- Node identifiers (OSM ids are integers). -/
abbrev Node := Nat

/-- Edge-cost values: finite floats become rationals, `float('inf')` becomes `⊤`. -/
abbrev Cost := WithTop ℚ

/-- The mutable attribute dictionary of one parallel edge record, restricted to
the keys the core reads and writes: `weight`, `length`, `blocked`,
`orig_length`.  A key absent from the dictionary is `none`. -/
structure EdgeAttrs where
  weight : Option Cost
  length : Option ℚ
  blocked : Option Bool
  orig_length : Option ℚ
deriving DecidableEq

/-- Truthiness of `data.get("blocked", False)`. -/
def EdgeAttrs.blockedTruthy (a : EdgeAttrs) : Bool := a.blocked.getD false

/-- `float(data.get("weight", data.get("length", 1.0)))` from
`get_best_edge_weight` (src/core/algorithms.py line 29). -/
def EdgeAttrs.candidate (a : EdgeAttrs) : Cost :=
  match a.weight with
  | some w => w
  | none =>
    match a.length with
    | some l => (l : Cost)
    | none => (1 : Cost)

/-- One parallel edge record of the multigraph: endpoints `u`, `v`,
parallel-edge key `k`, attribute dictionary `attrs`. -/
structure EdgeRec where
  u : Node
  v : Node
  k : Nat
  attrs : EdgeAttrs
deriving DecidableEq

/-- The graph contract of §6: node list, coordinate attributes
(`x` = longitude, `y` = latitude; `none` models a missing attribute),
and the list of parallel edge records in insertion order. -/
structure Graph where
  nodes : List Node
  nodeX : Node → Option ℚ
  nodeY : Node → Option ℚ
  edges : List EdgeRec

/-- `G.get_edge_data(u, v)`: all parallel records from `u` to `v`,
in insertion order (an empty list models `None`/falsy). -/
def Graph.edgeData (G : Graph) (u v : Node) : List EdgeRec :=
  G.edges.filter (fun er => er.u = u && er.v = v)

/-- First-occurrence deduplication, preserving the order in which targets
first appear (networkx adjacency iteration order). -/
def firstDedup : List Node → List Node → List Node
  | _, [] => []
  | seen, x :: xs =>
    if x ∈ seen then firstDedup seen xs
    else x :: firstDedup (x :: seen) xs

/-- `G.neighbors(u)`: each successor once, in first-edge order. -/
def Graph.neighbors (G : Graph) (u : Node) : List Node :=
  firstDedup [] ((G.edges.filter (fun er => er.u = u)).map (fun er => er.v))

/-- `_node_xy` (src/core/algorithms.py lines 41-43): coordinates with 0.0 default. -/
def Graph.nodeXY (G : Graph) (n : Node) : ℚ × ℚ :=
  ((G.nodeX n).getD 0, (G.nodeY n).getD 0)

/-- Squared planar Euclidean distance between node coordinates.  The code's
`heuristic` is `Real.sqrt` of this times `111000`; since that map is
strictly monotone, all comparisons of heuristic values coincide with
comparisons of `heurSq` values. -/
def heurSq (G : Graph) (u v : Node) : ℚ :=
  ((G.nodeXY u).1 - (G.nodeXY v).1) ^ 2 + ((G.nodeXY u).2 - (G.nodeXY v).2) ^ 2

/-- `get_best_edge_weight` (src/core/algorithms.py lines 9-39), translated
clause by clause: empty edge data returns `inf`; the loop skips blocked
records unless `ignore_damage`; a record's candidate weight replaces the
running best only when strictly smaller, which also sets `found_passable`;
if the flag never fired the function returns `inf`. -/
def get_best_edge_weight (G : Graph) (u v : Node) (ignore_damage : Bool) : Cost :=
  let edge_data := G.edgeData u v
  if edge_data.isEmpty then ⊤
  else
    let r := edge_data.foldl
      (fun (acc : Cost × Bool) (er : EdgeRec) =>
        if !ignore_damage && er.attrs.blockedTruthy then acc
        else
          let w := er.attrs.candidate
          if w < acc.1 then (w, true) else acc)
      ((⊤ : Cost), false)
    if r.2 then r.1 else ⊤

/-- Modelled from the spec (§4.1): a record is passable unless it is blocked
and damage is not ignored. -/
def passableRec (ignore_damage : Bool) (er : EdgeRec) : Bool :=
  ignore_damage || !er.attrs.blockedTruthy

/-- Modelled from the spec (§4.1): the minimum candidate cost across passable
parallel records, `⊤` when none are passable (also when there is no edge
data at all). -/
def resolve_weight_spec (G : Graph) (u v : Node) (ignore_damage : Bool) : Cost :=
  ((G.edgeData u v).filter (passableRec ignore_damage)).foldl
    (fun m er => min m er.attrs.candidate) ⊤

section C1Lemmas

private def gbewStep (ignore_damage : Bool) (acc : Cost × Bool) (er : EdgeRec) :
    Cost × Bool :=
  if !ignore_damage && er.attrs.blockedTruthy then acc
  else if er.attrs.candidate < acc.1 then (er.attrs.candidate, true) else acc

private lemma gbewStep_skip_eq (ig : Bool) (er : EdgeRec) :
    (!ig && er.attrs.blockedTruthy) = !(passableRec ig er) := by
  unfold passableRec
  cases ig <;> cases er.attrs.blockedTruthy <;> rfl

private lemma gbewStep_fst (ig : Bool) (acc : Cost × Bool) (er : EdgeRec) :
    (gbewStep ig acc er).1 =
      if passableRec ig er then min acc.1 er.attrs.candidate else acc.1 := by
  unfold gbewStep
  rw [gbewStep_skip_eq]
  by_cases hp : passableRec ig er = true
  · rw [hp]
    simp only [Bool.not_true, Bool.false_eq_true, if_false, if_pos hp]
    by_cases hw : er.attrs.candidate < acc.1
    · simp [hw, min_eq_right (le_of_lt hw)]
    · simp [hw, min_eq_left (le_of_not_lt hw)]
  · have hp' : passableRec ig er = false := by simpa using hp
    rw [hp']
    simp

private lemma gbewStep_flag (ig : Bool) (acc : Cost × Bool) (er : EdgeRec)
    (h : acc.2 = false → acc.1 = ⊤) :
    (gbewStep ig acc er).2 = false → (gbewStep ig acc er).1 = ⊤ := by
  unfold gbewStep
  by_cases hc : (!ig && er.attrs.blockedTruthy) = true
  · rw [if_pos hc]; exact h
  · rw [if_neg hc]
    by_cases hw : er.attrs.candidate < acc.1
    · rw [if_pos hw]; intro h2; simp at h2
    · rw [if_neg hw]; exact h

private lemma gbew_fold_fst (ig : Bool) (l : List EdgeRec) (acc : Cost × Bool) :
    (l.foldl (gbewStep ig) acc).1 =
      (l.filter (passableRec ig)).foldl (fun m er => min m er.attrs.candidate) acc.1 := by
  induction l generalizing acc with
  | nil => rfl
  | cons er tl ih =>
    by_cases hp : passableRec ig er
    · rw [List.foldl_cons, List.filter_cons_of_pos hp, List.foldl_cons, ih]
      congr 1
      rw [gbewStep_fst, if_pos hp]
    · rw [List.foldl_cons, List.filter_cons_of_neg (by simpa using hp), ih]
      congr 1
      rw [gbewStep_fst, if_neg hp]

private lemma gbew_fold_flag (ig : Bool) (l : List EdgeRec) (acc : Cost × Bool)
    (h : acc.2 = false → acc.1 = ⊤) :
    (l.foldl (gbewStep ig) acc).2 = false → (l.foldl (gbewStep ig) acc).1 = ⊤ := by
  induction l generalizing acc with
  | nil => exact h
  | cons er tl ih =>
    intro hf
    exact ih _ (gbewStep_flag ig acc er h) hf

end C1Lemmas

/-- **C1.** `get_best_edge_weight(G, u, v, ignore_damage)` returns the minimum
over all passable parallel edges of the candidate cost (`weight` if present,
else `length` if present, else `1.0`), where an edge is passable unless it is
blocked and `ignore_damage` is false; it returns `+∞` when no parallel edge is
passable or when there is no edge data between `u` and `v` at all (the
spec-side minimum over an empty passable set is `⊤`). -/
theorem get_best_edge_weight_eq_resolve_weight_spec
    (G : Graph) (u v : Node) (ignore_damage : Bool) :
    get_best_edge_weight G u v ignore_damage =
      resolve_weight_spec G u v ignore_damage := by
  unfold get_best_edge_weight resolve_weight_spec
  by_cases he : (G.edgeData u v).isEmpty
  · rw [if_pos he]
    rw [List.isEmpty_iff] at he
    rw [he]
    rfl
  · rw [if_neg he]
    have hfold : (G.edgeData u v).foldl
        (fun (acc : Cost × Bool) (er : EdgeRec) =>
          if !ignore_damage && er.attrs.blockedTruthy then acc
          else
            let w := er.attrs.candidate
            if w < acc.1 then (w, true) else acc)
        ((⊤ : Cost), false) =
        (G.edgeData u v).foldl (gbewStep ignore_damage) ((⊤ : Cost), false) := rfl
    rw [hfold]
    by_cases hflag : ((G.edgeData u v).foldl (gbewStep ignore_damage)
        ((⊤ : Cost), false)).2 = true
    · rw [if_pos hflag]
      exact gbew_fold_fst ignore_damage (G.edgeData u v) ((⊤ : Cost), false)
    · rw [if_neg hflag]
      have h1 := gbew_fold_flag ignore_damage (G.edgeData u v) ((⊤ : Cost), false)
        (fun _ => rfl) (by simpa using hflag)
      exact h1.symm.trans
        (gbew_fold_fst ignore_damage (G.edgeData u v) ((⊤ : Cost), false))

/-! ### DamageController (src/core/data_manager.py) -/

/-- `(u, v, key)` identifying one parallel edge record. -/
abbrev EdgeKey := Node × Node × Nat

/-- Distance oracle: the number the Python code computes as the distance from
the damage/query center to a given edge record (shapely `nearest_points` on
the record's geometry composed with `_haversine`, falling back to the
haversine distance to the endpoint midpoint; `⊤` models the `float('inf')`
sentinel kept when both computations fail).  The transcendental formula
itself is not representable over `ℚ`, so it is passed in explicitly. -/
abbrev DistOracle := EdgeRec → Cost

/-- The body of `mark_block` applied to one attribute dictionary
(src/core/data_manager.py lines 219-226): capture `orig_length` lazily
(only when absent and `length` is present), set `blocked = True` and
`weight = float('inf')`. -/
def markBlockAttrs (a : EdgeAttrs) : EdgeAttrs :=
  { weight := some ⊤
    length := a.length
    blocked := some true
    orig_length :=
      if a.orig_length.isNone && a.length.isSome then a.length else a.orig_length }

/-- `markBlockAttrs` lifted to one edge record. -/
def markRec (er : EdgeRec) : EdgeRec := { er with attrs := markBlockAttrs er.attrs }

/-- `blocked_edges.add(...)`: set-insertion modelled as append-if-new. -/
def addKey (acc : List EdgeKey) (key : EdgeKey) : List EdgeKey :=
  if key ∈ acc then acc else acc ++ [key]

/-- `mark_block(u, v)` from `apply_damage_area`/`block_area`
(src/core/data_manager.py lines 212-226 and 153-167): if there is no edge
data return unchanged; otherwise mark every parallel record from `u` to `v`
and record its key. -/
def mark_block (u v : Node) (st : Graph × List EdgeKey) : Graph × List EdgeKey :=
  let ed := st.1.edgeData u v
  if ed.isEmpty then st
  else
    ({ st.1 with
        edges := st.1.edges.map (fun er => if er.u = u && er.v = v then markRec er else er) },
     ed.foldl (fun acc er => addKey acc (u, v, er.k)) st.2)

/-- `apply_damage_area` (src/core/data_manager.py lines 196-250): sweep the
snapshot of all edge records; every record whose oracle distance is within
the radius triggers `mark_block(u, v)` followed by `mark_block(v, u)`.
(The `graph is None` early return is not modelled: the graph is always
present here.) -/
def apply_damage_area (dist : DistOracle) (radius_m : ℚ) (G : Graph) :
    Graph × List EdgeKey :=
  G.edges.foldl
    (fun st er =>
      if dist er ≤ ((radius_m : ℚ) : Cost) then
        mark_block er.v er.u (mark_block er.u er.v st)
      else st)
    (G, [])

/-- `block_area` (src/core/data_manager.py lines 140-193) has the same
blocking logic as `apply_damage_area` (same `mark_block` body, same
geometry-or-midpoint distance, same two-direction marking), differing only
in how the distance is computed on the Python side — which the oracle
already abstracts. -/
def block_area : DistOracle → ℚ → Graph → Graph × List EdgeKey := apply_damage_area

/-- `if data.get("blocked"): data.pop("blocked", None)` from
`reset_graph_state` (src/core/data_manager.py lines 293-295). -/
def clearBlocked (b : Option Bool) : Option Bool := if b.getD false then none else b

/-- The body of `reset_graph_state` applied to one attribute dictionary
(src/core/data_manager.py lines 292-309): clear a truthy `blocked` flag;
restore `length`/`weight` from `orig_length` when present, else from
`length`; with no length information drop `weight`. -/
def resetAttrs (a : EdgeAttrs) : EdgeAttrs :=
  match a.orig_length, a.length with
  | some o, _ =>
    { weight := some ((o : ℚ) : Cost), length := some o,
      blocked := clearBlocked a.blocked, orig_length := a.orig_length }
  | none, some l =>
    { weight := some ((l : ℚ) : Cost), length := some l,
      blocked := clearBlocked a.blocked, orig_length := none }
  | none, none =>
    { weight := none, length := none,
      blocked := clearBlocked a.blocked, orig_length := none }

/-- `resetAttrs` lifted to one edge record. -/
def resetRec (er : EdgeRec) : EdgeRec := { er with attrs := resetAttrs er.attrs }

/-- `reset_graph_state` (src/core/data_manager.py lines 286-309), the
canonical full reset. -/
def reset_graph_state (G : Graph) : Graph :=
  { G with edges := G.edges.map resetRec }

section DamageLemmas

lemma clearBlocked_idem (b : Option Bool) :
    clearBlocked (clearBlocked b) = clearBlocked b := by
  cases b with
  | none => rfl
  | some v => cases v <;> rfl

lemma resetAttrs_idem (a : EdgeAttrs) : resetAttrs (resetAttrs a) = resetAttrs a := by
  rcases a with ⟨w, l, b, o⟩
  rcases o with _ | o <;> rcases l with _ | l <;>
    simp [resetAttrs, clearBlocked_idem]

lemma resetRec_idem (er : EdgeRec) : resetRec (resetRec er) = resetRec er := by
  show EdgeRec.mk er.u er.v er.k (resetAttrs (resetAttrs er.attrs)) = _
  rw [resetAttrs_idem]
  rfl

lemma markBlockAttrs_idem (a : EdgeAttrs) :
    markBlockAttrs (markBlockAttrs a) = markBlockAttrs a := by
  rcases a with ⟨w, l, b, o⟩
  rcases o with _ | o <;> rcases l with _ | l <;>
    simp [markBlockAttrs]

lemma markRec_idem (er : EdgeRec) : markRec (markRec er) = markRec er := by
  show EdgeRec.mk er.u er.v er.k (markBlockAttrs (markBlockAttrs er.attrs)) = _
  rw [markBlockAttrs_idem]
  rfl

end DamageLemmas

/-- **C7.** Calling the reset operation (`reset_graph_state`) twice in a row
leaves every edge's attribute state identical to the state after the first
call alone. -/
theorem reset_graph_state_idem (G : Graph) :
    reset_graph_state (reset_graph_state G) = reset_graph_state G := by
  unfold reset_graph_state
  dsimp only
  congr 1
  rw [List.map_map]
  apply List.map_congr_left
  intro er _
  exact resetRec_idem er

section PairBlockLemmas

/-- A record lies between the unordered node pair `{u, v}`. -/
def pairMatches (u v : Node) (er : EdgeRec) : Prop :=
  (er.u = u ∧ er.v = v) ∨ (er.u = v ∧ er.v = u)

instance (u v : Node) (er : EdgeRec) : Decidable (pairMatches u v er) := by
  unfold pairMatches; infer_instance

/-- Every record between `{u, v}` is blocked with infinite weight. -/
def PairBlocked (u v : Node) (H : Graph) : Prop :=
  ∀ er ∈ H.edges, pairMatches u v er →
    er.attrs.blocked = some true ∧ er.attrs.weight = some ⊤

lemma markRec_u (er : EdgeRec) : (markRec er).u = er.u := rfl
lemma markRec_v (er : EdgeRec) : (markRec er).v = er.v := rfl

private def markIf (x y : Node) (er : EdgeRec) : EdgeRec :=
  if er.u = x && er.v = y then markRec er else er

lemma markIf_u (x y : Node) (er : EdgeRec) : (markIf x y er).u = er.u := by
  unfold markIf; split <;> rfl

lemma markIf_v (x y : Node) (er : EdgeRec) : (markIf x y er).v = er.v := by
  unfold markIf; split <;> rfl

lemma mark_block_fst_edges (x y : Node) (st : Graph × List EdgeKey) :
    (mark_block x y st).1.edges = st.1.edges.map (markIf x y) := by
  unfold mark_block
  by_cases he : (st.1.edgeData x y).isEmpty
  · rw [if_pos he]
    have hnone : ∀ er ∈ st.1.edges, markIf x y er = er := by
      intro er hm
      unfold markIf
      rw [if_neg]
      intro hxy
      have hmem : er ∈ st.1.edgeData x y := List.mem_filter.mpr ⟨hm, hxy⟩
      rw [List.isEmpty_iff] at he
      rw [he] at hmem
      exact absurd hmem (List.not_mem_nil er)
    calc st.1.edges = st.1.edges.map id := by rw [List.map_id]
    _ = st.1.edges.map (markIf x y) := List.map_congr_left (fun er hm => (hnone er hm).symm)
  · rw [if_neg he]
    rfl

lemma mark_block_preserves (u v x y : Node) (st : Graph × List EdgeKey)
    (h : PairBlocked u v st.1) : PairBlocked u v (mark_block x y st).1 := by
  intro er' hmem hmatch
  rw [mark_block_fst_edges] at hmem
  obtain ⟨er, hm, rfl⟩ := List.mem_map.mp hmem
  have hmatch' : pairMatches u v er := by
    unfold pairMatches at hmatch ⊢
    rwa [markIf_u, markIf_v] at hmatch
  unfold markIf
  split
  · exact ⟨rfl, rfl⟩
  · exact h er hm hmatch'

lemma pairMatches_symm (u v : Node) (er : EdgeRec) :
    pairMatches u v er ↔ pairMatches v u er := by
  unfold pairMatches; tauto

lemma PairBlocked_symm (u v : Node) (H : Graph) (h : PairBlocked v u H) :
    PairBlocked u v H := by
  intro er hm hx
  exact h er hm ((pairMatches_symm u v er).mp hx)

lemma markBoth_establishes (x y : Node) (st : Graph × List EdgeKey) :
    PairBlocked x y (mark_block y x (mark_block x y st)).1 := by
  intro er' hmem hmatch
  rw [mark_block_fst_edges, mark_block_fst_edges, List.map_map] at hmem
  obtain ⟨er, hm, rfl⟩ := List.mem_map.mp hmem
  have hmatch' : pairMatches x y er := by
    unfold pairMatches at hmatch ⊢
    simp only [Function.comp_apply, markIf_u, markIf_v] at hmatch
    exact hmatch
  simp only [Function.comp_apply]
  rcases hmatch' with ⟨h1, h2⟩ | ⟨h1, h2⟩
  · -- er is (x, y) oriented: the first mark hits it
    have hf1 : markIf x y er = markRec er := by
      unfold markIf; rw [if_pos (by simp [h1, h2])]
    rw [hf1]
    unfold markIf
    split
    · exact ⟨rfl, rfl⟩
    · exact ⟨rfl, rfl⟩
  · -- er is (y, x) oriented: the second mark hits it
    have hf2 : markIf y x (markIf x y er) = markRec (markIf x y er) := by
      unfold markIf
      split
      · rw [if_pos (by simp [markRec_u, markRec_v, h1, h2])]
      · rw [if_pos (by simp [h1, h2])]
    rw [hf2]
    exact ⟨rfl, rfl⟩

private def damageStep (dist : DistOracle) (radius_m : ℚ)
    (st : Graph × List EdgeKey) (er : EdgeRec) : Graph × List EdgeKey :=
  if dist er ≤ ((radius_m : ℚ) : Cost) then
    mark_block er.v er.u (mark_block er.u er.v st)
  else st

lemma damageStep_preserves (dist : DistOracle) (r : ℚ) (u v : Node)
    (st : Graph × List EdgeKey) (er : EdgeRec)
    (h : PairBlocked u v st.1) : PairBlocked u v (damageStep dist r st er).1 := by
  unfold damageStep
  split
  · exact mark_block_preserves _ _ _ _ _ (mark_block_preserves _ _ _ _ _ h)
  · exact h

lemma damageFold_preserves (dist : DistOracle) (r : ℚ) (u v : Node)
    (L : List EdgeRec) (st : Graph × List EdgeKey)
    (h : PairBlocked u v st.1) :
    PairBlocked u v (L.foldl (damageStep dist r) st).1 := by
  induction L generalizing st with
  | nil => exact h
  | cons er tl ih => exact ih _ (damageStep_preserves dist r u v st er h)

lemma damageFold_establishes (dist : DistOracle) (r : ℚ) (u v : Node)
    (L : List EdgeRec) (st : Graph × List EdgeKey) (er0 : EdgeRec)
    (hmem : er0 ∈ L) (hmatch : pairMatches u v er0)
    (hdist : dist er0 ≤ ((r : ℚ) : Cost)) :
    PairBlocked u v (L.foldl (damageStep dist r) st).1 := by
  induction L generalizing st with
  | nil => exact absurd hmem (List.not_mem_nil er0)
  | cons er tl ih =>
    rcases List.mem_cons.mp hmem with rfl | hmem'
    · rw [List.foldl_cons]
      apply damageFold_preserves
      unfold damageStep
      rw [if_pos hdist]
      rcases hmatch with ⟨h1, h2⟩ | ⟨h1, h2⟩
      · rw [h1, h2]
        exact markBoth_establishes u v st
      · rw [h1, h2]
        exact PairBlocked_symm u v _ (markBoth_establishes v u st)
    · exact ih (damageStep dist r st er) hmem'

/-- Shared helper: whenever some record between `{u, v}` is within the damage
radius, the damaged graph has every record between the pair (both
directions) blocked with infinite weight. -/
lemma apply_damage_blocks_pair (dist : DistOracle) (r : ℚ) (G : Graph) (u v : Node)
    (htrig : ∃ er0 ∈ G.edges, pairMatches u v er0 ∧ dist er0 ≤ ((r : ℚ) : Cost)) :
    PairBlocked u v (apply_damage_area dist r G).1 := by
  obtain ⟨er0, hmem, hmatch, hdist⟩ := htrig
  have : apply_damage_area dist r G = G.edges.foldl (damageStep dist r) (G, []) := rfl
  rw [this]
  exact damageFold_establishes dist r u v G.edges (G, []) er0 hmem hmatch hdist

end PairBlockLemmas

/-- **C10.** Blocking granularity is the unordered node pair: whenever
`apply_damage_area` finds any single edge record between `u` and `v` within
the damage radius, it blocks every parallel edge record from `u` to `v` and
from `v` to `u` — setting `blocked = True` and `weight = +∞` on each —
including parallel records whose own geometry (oracle distance) lies outside
the radius. -/
theorem apply_damage_blocks_whole_pair (dist : DistOracle) (r : ℚ) (G : Graph)
    (u v : Node)
    (htrig : ∃ er0 ∈ G.edges, pairMatches u v er0 ∧ dist er0 ≤ ((r : ℚ) : Cost)) :
    ∀ er' ∈ (apply_damage_area dist r G).1.edges, pairMatches u v er' →
      er'.attrs.blocked = some true ∧ er'.attrs.weight = some ⊤ :=
  apply_damage_blocks_pair dist r G u v htrig

section GbewTopLemmas

private lemma gbew_fold_top (ig : Bool) (l : List EdgeRec)
    (h : ∀ er ∈ l, er.attrs.candidate = ⊤) :
    l.foldl (gbewStep ig) ((⊤ : Cost), false) = ((⊤ : Cost), false) := by
  induction l with
  | nil => rfl
  | cons er tl ih =>
    rw [List.foldl_cons]
    have hstep : gbewStep ig ((⊤ : Cost), false) er = ((⊤ : Cost), false) := by
      unfold gbewStep
      split
      · rfl
      · rw [if_neg]
        rw [h er (List.mem_cons_self er tl)]
        exact lt_irrefl ⊤
    rw [hstep]
    exact ih (fun er' hm => h er' (List.mem_cons_of_mem er hm))

/-- If every parallel record from `u` to `v` carries `weight = inf`, the best
edge weight is `inf` regardless of `ignore_damage` (the blocked-skip guard is
irrelevant: the candidate itself is already infinite). -/
lemma gbew_top_of_weights_top (G : Graph) (u v : Node) (ig : Bool)
    (h : ∀ er ∈ G.edgeData u v, er.attrs.weight = some ⊤) :
    get_best_edge_weight G u v ig = ⊤ := by
  unfold get_best_edge_weight
  by_cases he : (G.edgeData u v).isEmpty
  · rw [if_pos he]
  · rw [if_neg he]
    have hc : ∀ er ∈ G.edgeData u v, er.attrs.candidate = ⊤ := by
      intro er hm
      unfold EdgeAttrs.candidate
      rw [h er hm]
    have hfold : (G.edgeData u v).foldl
        (fun (acc : Cost × Bool) (er : EdgeRec) =>
          if !ig && er.attrs.blockedTruthy then acc
          else
            let w := er.attrs.candidate
            if w < acc.1 then (w, true) else acc)
        ((⊤ : Cost), false) = ((⊤ : Cost), false) := gbew_fold_top ig _ hc
    rw [hfold]
    rfl

end GbewTopLemmas

/-- Distance oracle placing every record at distance 0 from the center. -/
def oracleZero : DistOracle := fun _ => (0 : Cost)

/-- Pre-damage attributes for the C2 counterexample: finite `length = 5`,
no override weight, not blocked. -/
def c2PreAttrs : EdgeAttrs := ⟨none, some 5, none, none⟩

/-- One-edge graph for the C2 counterexample. -/
def c2Graph : Graph :=
  ⟨[0, 1], fun _ => some 0, fun _ => some 0, [⟨0, 1, 0, c2PreAttrs⟩]⟩

/-- **C2 (counterexample).** The single edge had finite length 5 before
damage and was blocked by `apply_damage_area` (its attributes afterwards are
`weight = inf`, `blocked = True`, `orig_length = 5`), yet
`get_best_edge_weight(·, 0, 1, ignore_damage := true)` returns `+∞`, not the
finite normal cost the claim promises: `apply_damage_area` stored
`weight = inf` on the edge and `ignore_damage` only skips the blocked-flag
check, so the infinite stored weight still wins. -/
theorem c2_counterexample :
    c2PreAttrs.length = some (5 : ℚ) ∧
    (apply_damage_area oracleZero 50 c2Graph).1.edges =
      [⟨0, 1, 0, ⟨some ⊤, some 5, some true, some 5⟩⟩] ∧
    get_best_edge_weight (apply_damage_area oracleZero 50 c2Graph).1 0 1 true = ⊤ ∧
    (⊤ : Cost) ≠ ((5 : ℚ) : Cost) := by
  refine ⟨rfl, by decide, by decide, by decide⟩

/-- **C2 (amended).** For every pair `{u, v}` with some record inside the
damage radius, `apply_damage_area` blocks all parallel records and sets their
`weight` to `+∞`; `get_best_edge_weight` with `ignore_damage = true` still
enumerates those records as candidates, but their candidate cost is the
stored infinite weight, so both `ignore_damage = true` and
`ignore_damage = false` return `+∞` — the two modes do not differ on edges
blocked by `apply_damage_area`. -/
theorem damaged_pair_inf_both_modes (dist : DistOracle) (r : ℚ) (G : Graph)
    (u v : Node)
    (htrig : ∃ er0 ∈ G.edges, pairMatches u v er0 ∧ dist er0 ≤ ((r : ℚ) : Cost)) :
    get_best_edge_weight (apply_damage_area dist r G).1 u v true = ⊤ ∧
    get_best_edge_weight (apply_damage_area dist r G).1 u v false = ⊤ := by
  have hblk := apply_damage_blocks_pair dist r G u v htrig
  have hw : ∀ er ∈ (apply_damage_area dist r G).1.edgeData u v,
      er.attrs.weight = some ⊤ := by
    intro er hm
    have hm' := List.mem_filter.mp hm
    have hmatch : pairMatches u v er := by
      left
      have := hm'.2
      simp only [Bool.and_eq_true, decide_eq_true_eq] at this
      exact this
    exact (hblk er hm'.1 hmatch).2
  exact ⟨gbew_top_of_weights_top _ _ _ _ hw, gbew_top_of_weights_top _ _ _ _ hw⟩

/-- Witness for the amended C2 theorem at the concrete one-edge graph. -/
theorem damaged_pair_inf_both_modes_witness :
    get_best_edge_weight (apply_damage_area oracleZero 50 c2Graph).1 0 1 true = ⊤ ∧
    get_best_edge_weight (apply_damage_area oracleZero 50 c2Graph).1 0 1 false = ⊤ :=
  damaged_pair_inf_both_modes oracleZero 50 c2Graph 0 1
    ⟨⟨0, 1, 0, c2PreAttrs⟩, by decide, by decide, by decide⟩

/-- Parallel-edge graph for the C10 witness: two parallel records `0 → 1`
(keys 0 and 1) and one reverse record `1 → 0`. -/
def c10Graph : Graph :=
  ⟨[0, 1], fun _ => some 0, fun _ => some 0,
   [⟨0, 1, 0, ⟨none, some 5, none, none⟩⟩,
    ⟨0, 1, 1, ⟨none, some 7, none, none⟩⟩,
    ⟨1, 0, 0, ⟨none, some 5, none, none⟩⟩]⟩

/-- Oracle for the C10 witness: only the key-0 record lies inside the radius;
the parallel key-1 record is far outside it. -/
def c10Oracle : DistOracle := fun er => if er.k = 0 then (0 : Cost) else (100 : Cost)

/-- Witness for C10: with radius 50 only the key-0 record `0 → 1` is within
range, yet the parallel key-1 record (oracle distance 100) and the reverse
record `1 → 0` are blocked with infinite weight as well. -/
theorem apply_damage_blocks_whole_pair_witness :
    (((apply_damage_area c10Oracle 50 c10Graph).1.edges.getD 1
        ⟨0, 0, 0, ⟨none, none, none, none⟩⟩).attrs.blocked = some true) ∧
    (((apply_damage_area c10Oracle 50 c10Graph).1.edges.getD 1
        ⟨0, 0, 0, ⟨none, none, none, none⟩⟩).attrs.weight = some ⊤) ∧
    (((apply_damage_area c10Oracle 50 c10Graph).1.edges.getD 2
        ⟨0, 0, 0, ⟨none, none, none, none⟩⟩).attrs.blocked = some true) := by
  have h := apply_damage_blocks_whole_pair c10Oracle 50 c10Graph 0 1
    ⟨⟨0, 1, 0, ⟨none, some 5, none, none⟩⟩, by decide, by decide, by decide⟩
  exact ⟨(h _ (by decide) (by decide)).1, (h _ (by decide) (by decide)).2,
    (h _ (by decide) (by decide)).1⟩

/-! ### C6: the damage / reset round trip -/

/-- Pre-damage attributes for the C6 counterexample: `length = 2` but an
override `weight = 3`. -/
def c6PreAttrs : EdgeAttrs := ⟨some ((3 : ℚ) : Cost), some 2, none, none⟩

/-- One-edge graph for the C6 counterexample. -/
def c6Graph : Graph :=
  ⟨[0, 1], fun _ => some 0, fun _ => some 0, [⟨0, 1, 0, c6PreAttrs⟩]⟩

/-- **C6 (counterexample).** An affected edge with pre-damage `weight = 3`
and `length = 2` comes out of the `apply_damage_area` / `reset_graph_state`
round trip with `weight = 2`: the reset restores `weight` from `orig_length`
(the captured length), not from the pre-damage weight, so the round trip is
not an exact restoration of the `weight` attribute. -/
theorem c6_counterexample :
    c6PreAttrs.weight = some ((3 : ℚ) : Cost) ∧
    c6PreAttrs.length = some (2 : ℚ) ∧
    (reset_graph_state (apply_damage_area oracleZero 50 c6Graph).1).edges =
      [⟨0, 1, 0, ⟨some ((2 : ℚ) : Cost), some 2, none, some 2⟩⟩] ∧
    (some ((2 : ℚ) : Cost) : Option Cost) ≠ some ((3 : ℚ) : Cost) := by
  refine ⟨rfl, rfl, by decide, by decide⟩

section RoundTripLemmas

private def dmgRel (er0 er : EdgeRec) : Prop := er = er0 ∨ er = markRec er0

private lemma dmgRel_markIf (x y : Node) (er0 er : EdgeRec) (h : dmgRel er0 er) :
    dmgRel er0 (markIf x y er) := by
  unfold markIf
  split
  · rcases h with rfl | rfl
    · exact Or.inr rfl
    · exact Or.inr (markRec_idem er0)
  · exact h

private lemma dmgRel_map_markIf (x y : Node) (l0 l : List EdgeRec)
    (h : List.Forall₂ dmgRel l0 l) :
    List.Forall₂ dmgRel l0 (l.map (markIf x y)) :=
  List.forall₂_map_right_iff.mpr (h.imp (fun a b hab => dmgRel_markIf x y a b hab))

private lemma dmgRel_mark_block (x y : Node) (l0 : List EdgeRec)
    (st : Graph × List EdgeKey) (h : List.Forall₂ dmgRel l0 st.1.edges) :
    List.Forall₂ dmgRel l0 (mark_block x y st).1.edges := by
  rw [mark_block_fst_edges]
  exact dmgRel_map_markIf x y _ _ h

private lemma dmgRel_fold (dist : DistOracle) (r : ℚ) (l0 : List EdgeRec)
    (L : List EdgeRec) (st : Graph × List EdgeKey)
    (h : List.Forall₂ dmgRel l0 st.1.edges) :
    List.Forall₂ dmgRel l0 ((L.foldl (damageStep dist r) st).1).edges := by
  induction L generalizing st with
  | nil => exact h
  | cons er tl ih =>
    apply ih
    unfold damageStep
    split
    · exact dmgRel_mark_block _ _ _ _ (dmgRel_mark_block _ _ _ _ h)
    · exact h

/-- The damaged edge list is positionally related to the original one:
each record is either untouched or marked. -/
private lemma dmgRel_apply_damage (dist : DistOracle) (r : ℚ) (G : Graph) :
    List.Forall₂ dmgRel G.edges (apply_damage_area dist r G).1.edges := by
  have : apply_damage_area dist r G = G.edges.foldl (damageStep dist r) (G, []) := rfl
  rw [this]
  exact dmgRel_fold dist r G.edges G.edges (G, [])
    (List.forall₂_same.mpr (fun er _ => Or.inl rfl))

private lemma forall₂_imp_mem {R Q : EdgeRec → EdgeRec → Prop} :
    ∀ {l0 l : List EdgeRec}, List.Forall₂ R l0 l →
      (∀ er0 ∈ l0, ∀ er, R er0 er → Q er0 er) → List.Forall₂ Q l0 l := by
  intro l0 l h
  induction h with
  | nil => intro _; exact List.Forall₂.nil
  | @cons a b la lb hab _ ih =>
    intro hm
    exact List.Forall₂.cons (hm a (List.mem_cons_self a la) b hab)
      (ih (fun er0 h0 => hm er0 (List.mem_cons_of_mem a h0)))

end RoundTripLemmas

/-- **C6 (amended).** For every graph whose edges carry no stale
`orig_length` and no pre-existing `blocked` flag, `apply_damage_area`
followed by `reset_graph_state` preserves each record's endpoints and key,
restores its `length` exactly (bit-for-bit from the lazily captured
`orig_length`), leaves `blocked` cleared, and sets `weight` to the restored
length — which equals the pre-damage weight only when that weight equaled
the length (the counterexample shows exact weight restoration fails
otherwise). -/
theorem apply_damage_reset_round_trip (dist : DistOracle) (r : ℚ) (G : Graph)
    (hpre : ∀ er ∈ G.edges, er.attrs.orig_length = none ∧ er.attrs.blocked = none) :
    List.Forall₂
      (fun er0 er' => er'.u = er0.u ∧ er'.v = er0.v ∧ er'.k = er0.k ∧
        er'.attrs.length = er0.attrs.length ∧ er'.attrs.blocked = none ∧
        er'.attrs.weight = er0.attrs.length.map (fun l => ((l : ℚ) : Cost)))
      G.edges (reset_graph_state (apply_damage_area dist r G).1).edges := by
  have hdmg := dmgRel_apply_damage dist r G
  unfold reset_graph_state
  dsimp only
  rw [List.forall₂_map_right_iff]
  apply forall₂_imp_mem hdmg
  intro er0 hmem er hrel
  obtain ⟨horig, hblk⟩ := hpre er0 hmem
  have hrel' : er = er0 ∨ er = markRec er0 := hrel
  rcases hrel' with rfl | rfl
  · rcases er with ⟨u0, v0, k0, ⟨w0, l0, b0, o0⟩⟩
    simp only at horig hblk
    subst horig hblk
    rcases l0 with _ | l0 <;>
      simp [resetRec, resetAttrs, clearBlocked]
  · rcases er0 with ⟨u0, v0, k0, ⟨w0, l0, b0, o0⟩⟩
    simp only at horig hblk
    subst horig hblk
    rcases l0 with _ | l0 <;>
      simp [resetRec, resetAttrs, markRec, markBlockAttrs, clearBlocked]

/-- Witness graph for the amended C6 theorem: one edge with
`weight = 9 ≠ length = 4`. -/
def c6WGraph : Graph :=
  ⟨[0, 1], fun _ => some 0, fun _ => some 0,
   [⟨0, 1, 0, ⟨some ((9 : ℚ) : Cost), some 4, none, none⟩⟩]⟩

/-- Witness for the amended C6 theorem at a concrete one-edge graph. -/
theorem apply_damage_reset_round_trip_witness :
    List.Forall₂
      (fun er0 er' => er'.u = er0.u ∧ er'.v = er0.v ∧ er'.k = er0.k ∧
        er'.attrs.length = er0.attrs.length ∧ er'.attrs.blocked = none ∧
        er'.attrs.weight = er0.attrs.length.map (fun l => ((l : ℚ) : Cost)))
      c6WGraph.edges (reset_graph_state (apply_damage_area oracleZero 50 c6WGraph).1).edges :=
  apply_damage_reset_round_trip oracleZero 50 c6WGraph (by decide)

/-! ### GeoResolver: `get_nearest_node` (src/core/data_manager.py lines 58-86) -/

/-- Query-point distance oracle standing for the transcendental
`_haversine(lat1, lon1, lat2, lon2)` (src/core/data_manager.py lines
372-378): first argument is the query `(lat, lon)`, second the node's
`(lat, lon)`.  The haversine formula uses `sin`/`cos`/`asin`/`sqrt` and is
not representable over `ℚ`, so its value is passed in explicitly; only the
comparison logic around it belongs to the code under verification. -/
abbrev HavOracle := ℚ × ℚ → ℚ × ℚ → ℚ

/-- `_nearest_node_haversine` (src/core/data_manager.py lines 355-369):
linear scan over all nodes keeping the strictly closer one, skipping nodes
with a missing coordinate; `best_dist` starts at `float('inf')`. -/
def _nearest_node_haversine (hav : HavOracle) (G : Graph) (lat lon : ℚ) :
    Option Node :=
  (G.nodes.foldl
    (fun (acc : Option Node × Cost) n =>
      match G.nodeY n, G.nodeX n with
      | some nlat, some nlon =>
        if ((hav (lat, lon) (nlat, nlon) : ℚ) : Cost) < acc.2
        then (some n, ((hav (lat, lon) (nlat, nlon) : ℚ) : Cost)) else acc
      | _, _ => acc)
    (none, (⊤ : Cost))).1

/-- Outcome of `get_nearest_node`: the `ValueError("Konum yola çok uzak")`
distance rejection, a `None` return, or a found node id. -/
inductive NearestResult where
  | errTooFar : NearestResult
  | noneResult : NearestResult
  | found : Node → NearestResult
deriving DecidableEq

/-- `get_nearest_node` (src/core/data_manager.py lines 58-86), taking the
pure-Python nearest-node scan path (the accelerated `osmnx` index is an
external collaborator whose failure falls back to exactly this scan):
resolve the nearest node, return `None` when there is none or its
coordinates are missing, raise the distance rejection when its haversine
distance exceeds `max_distance_m`, else return the node id. -/
def get_nearest_node (hav : HavOracle) (G : Graph) (lat lon : ℚ)
    (max_distance_m : ℚ) : NearestResult :=
  match _nearest_node_haversine hav G lat lon with
  | none => NearestResult.noneResult
  | some node_id =>
    match G.nodeY node_id, G.nodeX node_id with
    | some nlat, some nlon =>
      if max_distance_m < hav (lat, lon) (nlat, nlon) then NearestResult.errTooFar
      else NearestResult.found node_id
    | _, _ => NearestResult.noneResult

section NearestLemmas

private def nScanStep (hav : HavOracle) (G : Graph) (lat lon : ℚ)
    (acc : Option Node × Cost) (n : Node) : Option Node × Cost :=
  match G.nodeY n, G.nodeX n with
  | some nlat, some nlon =>
    if ((hav (lat, lon) (nlat, nlon) : ℚ) : Cost) < acc.2
    then (some n, ((hav (lat, lon) (nlat, nlon) : ℚ) : Cost)) else acc
  | _, _ => acc

private lemma nScanStep_le (hav : HavOracle) (G : Graph) (lat lon : ℚ)
    (acc : Option Node × Cost) (n : Node) :
    (nScanStep hav G lat lon acc n).2 ≤ acc.2 := by
  unfold nScanStep
  rcases hy : G.nodeY n with _ | nlat
  · exact le_refl _
  · rcases hx : G.nodeX n with _ | nlon
    · exact le_refl _
    · dsimp only
      split
      · exact le_of_lt (by assumption)
      · exact le_refl _

private lemma nScanFold_le (hav : HavOracle) (G : Graph) (lat lon : ℚ)
    (l : List Node) (acc : Option Node × Cost) :
    (l.foldl (nScanStep hav G lat lon) acc).2 ≤ acc.2 := by
  induction l generalizing acc with
  | nil => exact le_refl _
  | cons n tl ih => exact le_trans (ih _) (nScanStep_le hav G lat lon acc n)

private lemma nScanFold_min (hav : HavOracle) (G : Graph) (lat lon : ℚ)
    (l : List Node) (acc : Option Node × Cost) :
    ∀ m ∈ l, ∀ mlat mlon, G.nodeY m = some mlat → G.nodeX m = some mlon →
      (l.foldl (nScanStep hav G lat lon) acc).2 ≤
        ((hav (lat, lon) (mlat, mlon) : ℚ) : Cost) := by
  induction l generalizing acc with
  | nil => intro m hm; exact absurd hm (List.not_mem_nil m)
  | cons n tl ih =>
    intro m hm mlat mlon hy hx
    rcases List.mem_cons.mp hm with rfl | hm'
    · rw [List.foldl_cons]
      refine le_trans (nScanFold_le hav G lat lon tl _) ?_
      unfold nScanStep
      rw [hy, hx]
      dsimp only
      split
      · exact le_refl _
      · exact le_of_not_lt (by assumption)
    · exact ih _ m hm' mlat mlon hy hx

private def nScanInv (hav : HavOracle) (G : Graph) (lat lon : ℚ)
    (acc : Option Node × Cost) : Prop :=
  (acc.1 = none ∧ acc.2 = ⊤) ∨
    (∃ b blat blon, acc.1 = some b ∧ G.nodeY b = some blat ∧
      G.nodeX b = some blon ∧ acc.2 = ((hav (lat, lon) (blat, blon) : ℚ) : Cost))

private lemma nScanStep_inv (hav : HavOracle) (G : Graph) (lat lon : ℚ)
    (acc : Option Node × Cost) (n : Node)
    (h : nScanInv hav G lat lon acc) :
    nScanInv hav G lat lon (nScanStep hav G lat lon acc n) := by
  unfold nScanStep
  rcases hy : G.nodeY n with _ | nlat
  · exact h
  · rcases hx : G.nodeX n with _ | nlon
    · exact h
    · simp only
      split
      · exact Or.inr ⟨n, nlat, nlon, rfl, hy, hx, rfl⟩
      · exact h

private lemma nScanFold_inv (hav : HavOracle) (G : Graph) (lat lon : ℚ)
    (l : List Node) (acc : Option Node × Cost)
    (h : nScanInv hav G lat lon acc) :
    nScanInv hav G lat lon (l.foldl (nScanStep hav G lat lon) acc) := by
  induction l generalizing acc with
  | nil => exact h
  | cons n tl ih => exact ih _ (nScanStep_inv hav G lat lon acc n h)

end NearestLemmas

/-- **C9.** Whenever the pure-Python nearest-node scan resolves a node `n`,
that node has coordinates, its haversine-oracle distance to the query is
minimal among all coordinate-bearing nodes (it is *the* nearest node), and
`get_nearest_node` raises the distance-rejection error exactly when that
distance exceeds `max_distance_m`, returning `n` when it is within the
threshold. -/
theorem get_nearest_node_threshold (hav : HavOracle) (G : Graph)
    (lat lon maxd : ℚ) (n : Node)
    (hn : _nearest_node_haversine hav G lat lon = some n) :
    ∃ nlat nlon, G.nodeY n = some nlat ∧ G.nodeX n = some nlon ∧
      (∀ m ∈ G.nodes, ∀ mlat mlon, G.nodeY m = some mlat → G.nodeX m = some mlon →
        hav (lat, lon) (nlat, nlon) ≤ hav (lat, lon) (mlat, mlon)) ∧
      (maxd < hav (lat, lon) (nlat, nlon) →
        get_nearest_node hav G lat lon maxd = NearestResult.errTooFar) ∧
      (hav (lat, lon) (nlat, nlon) ≤ maxd →
        get_nearest_node hav G lat lon maxd = NearestResult.found n) := by
  have hfold : _nearest_node_haversine hav G lat lon =
      (G.nodes.foldl (nScanStep hav G lat lon) (none, (⊤ : Cost))).1 := rfl
  have hinv := nScanFold_inv hav G lat lon G.nodes (none, (⊤ : Cost))
    (Or.inl ⟨rfl, rfl⟩)
  rcases hinv with ⟨h1, _⟩ | ⟨b, blat, blon, hb, hy, hx, hd⟩
  · rw [hfold, h1] at hn; exact absurd hn (by simp)
  · rw [hfold, hb] at hn
    have hbn : b = n := Option.some.inj hn
    subst hbn
    refine ⟨blat, blon, hy, hx, ?_, ?_, ?_⟩
    · intro m hm mlat mlon hmy hmx
      have := nScanFold_min hav G lat lon G.nodes (none, (⊤ : Cost)) m hm mlat mlon hmy hmx
      rw [hd] at this
      exact_mod_cast this
    · intro hfar
      have hnb : _nearest_node_haversine hav G lat lon = some b := hfold.trans hb
      unfold get_nearest_node
      rw [hnb]
      dsimp only
      rw [hy, hx]
      dsimp only
      rw [if_pos hfar]
    · intro hnear
      have hnb : _nearest_node_haversine hav G lat lon = some b := hfold.trans hb
      unfold get_nearest_node
      rw [hnb]
      dsimp only
      rw [hy, hx]
      dsimp only
      rw [if_neg (not_lt.mpr hnear)]

/-- One-node graph for the C9 witness. -/
def c9Graph : Graph := ⟨[0], fun _ => some 0, fun _ => some 0, []⟩

/-- Haversine oracle for the rejection case: every distance is 50 m. -/
def hav50 : HavOracle := fun _ _ => 50

/-- Haversine oracle for the acceptance case: every distance is 5 m. -/
def hav5 : HavOracle := fun _ _ => 5

/-- Witness for C9: with `max_distance = 10` meters the resolver fails when
the closest node is 50 m away and succeeds when it is 5 m away. -/
theorem get_nearest_node_threshold_witness :
    get_nearest_node hav50 c9Graph 0 0 10 = NearestResult.errTooFar ∧
    get_nearest_node hav5 c9Graph 0 0 10 = NearestResult.found 0 := by
  obtain ⟨nlat, nlon, hy, hx, _, hfar, _⟩ :=
    get_nearest_node_threshold hav50 c9Graph 0 0 10 0 (by decide)
  obtain ⟨nlat2, nlon2, hy2, hx2, _, _, hnear⟩ :=
    get_nearest_node_threshold hav5 c9Graph 0 0 10 0 (by decide)
  have e1 : (0 : ℚ) = nlat := Option.some.inj hy
  have e2 : (0 : ℚ) = nlon := Option.some.inj hx
  have e3 : (0 : ℚ) = nlat2 := Option.some.inj hy2
  have e4 : (0 : ℚ) = nlon2 := Option.some.inj hx2
  subst e1; subst e2; subst e3; subst e4
  exact ⟨hfar (by norm_num [hav50]), hnear (by norm_num [hav5])⟩

/-! ### `simulate_scattered_damage` (src/core/data_manager.py lines 312-352) -/

/-- The hidden state of the global `random` module, made explicit for the
embedding (stateful code becomes explicit state passing).  `sample s n k`
stands for `random.sample` drawing `k` indices from a population of size `n`
in state `s`, returning the indices and the successor state; `uniform s`
stands for `random.uniform(15.0, 20.0)` in state `s`.  The source function
has no seed parameter: it calls the module-level `random.sample` /
`random.uniform` directly. -/
structure RngModel where
  sample : Nat → Nat → Nat → List Nat × Nat
  uniform : Nat → ℚ × Nat

/-- Geometry-midpoint oracle standing for
`geom.interpolate(0.5, normalized=True)` on the record's shapely geometry
(`none` when the record has no geometry or the interpolation fails). -/
abbrev MidOracle := EdgeRec → Option (ℚ × ℚ)

/-- `simulate_scattered_damage` (src/core/data_manager.py lines 312-352):
pick `min count |edges|` random edge records, locate each one's midpoint
(geometry oracle, falling back to the endpoint coordinate average, skipping
records where both fail), draw a random radius, and `block_area` around the
midpoint, accumulating `(lat, lon, radius, blocked_keys)` events.
`distAt p` is the `block_area` distance oracle for center `p`.  Returns the
event list together with the mutated graph. -/
def simulate_scattered_damage (R : RngModel) (distAt : ℚ × ℚ → DistOracle)
    (mid : MidOracle) (s0 : Nat) (G : Graph) (count : Nat) :
    List (ℚ × ℚ × ℚ × List EdgeKey) × Graph :=
  if G.edges.isEmpty then ([], G)
  else
    let all_edges := G.edges
    let pick_count := min count all_edges.length
    let drawn := R.sample s0 all_edges.length pick_count
    let chosen := drawn.1.filterMap (fun i => all_edges.get? i)
    let final := chosen.foldl
      (fun (st : Graph × Nat × List (ℚ × ℚ × ℚ × List EdgeKey)) er =>
        let midpt :=
          match mid er with
          | some p => some p
          | none =>
            match st.1.nodeY er.u, st.1.nodeX er.u, st.1.nodeY er.v, st.1.nodeX er.v with
            | some uy, some ux, some vy, some vx =>
              some ((uy + vy) / 2, (ux + vx) / 2)
            | _, _, _, _ => none
        match midpt with
        | none => st
        | some p =>
          let ru := R.uniform st.2.1
          let br := block_area (distAt p) ru.1 st.1
          (br.1, ru.2, st.2.2 ++ [(p.1, p.2, ru.1, br.2)]))
      (G, drawn.2, [])
    (final.2.2, final.1)

/-- **C8 (explicit-state embedding).** With the global RNG state made an
explicit parameter, `simulate_scattered_damage` is a pure function of the
RNG model, the state, and the graph: two runs from identical states on
identical graphs produce identical damage-event lists (same centers, radii
and blocked edge keys) and identical final graphs.  In the source the state
is the *hidden global* `random` module state and no `seed` parameter
exists, which is the divergence recorded for this claim. -/
theorem simulate_scattered_damage_deterministic (R : RngModel)
    (distAt : ℚ × ℚ → DistOracle) (mid : MidOracle) (s1 s2 : Nat)
    (G1 G2 : Graph) (count : Nat) (hs : s1 = s2) (hG : G1 = G2) :
    simulate_scattered_damage R distAt mid s1 G1 count =
      simulate_scattered_damage R distAt mid s2 G2 count := by
  rw [hs, hG]

/-- Trivial RNG model for the C8 witness. -/
def rngW : RngModel :=
  ⟨fun s n k => ((List.range k).map (fun i => (s + i) % max n 1), s + k),
   fun s => (15 + (s % 6 : Nat), s + 1)⟩

/-- Witness for the C8 determinism theorem at concrete arguments. -/
theorem simulate_scattered_damage_deterministic_witness :
    simulate_scattered_damage rngW (fun _ => oracleZero) (fun _ => none) 42 c10Graph 5 =
      simulate_scattered_damage rngW (fun _ => oracleZero) (fun _ => none) 42 c10Graph 5 :=
  simulate_scattered_damage_deterministic rngW (fun _ => oracleZero) (fun _ => none)
    42 42 c10Graph c10Graph 5 rfl rfl

/-! ### Pathfinder (src/core/algorithms.py lines 57-159)

`dijkstra_search` and `astar_search` share one loop shape; they differ in
(a) the relaxation base — Dijkstra uses the popped key `current_dist`,
A* re-reads `g_score.get(current, inf)` — selected by `useKey`, and
(b) the pushed priority — Dijkstra pushes `new_dist` (here `nd + pot v`
with `pot = 0`, equal by `x + 0 = x`), A* pushes
`tentative_g + heuristic(neighbor, end)` with `pot` standing for the
heuristic.  The code's heuristic value `hypot(dx, dy) * 111000` is an
irrational real, so A*'s `pot` is an explicit function parameter; the
fallback-target `min(visited, key=heuristic)` only compares heuristic
values, which coincides with comparing `heurSq` values (strict monotonicity
of `x ↦ sqrt x * 111000`), and ties among equal heuristic values are
resolved by node id, reflecting CPython's ascending small-int set iteration
order that feeds Python's `min`. -/

/-- Search state: the heap (as a list; `popMin` extracts the minimum
`(priority, node)` tuple exactly as `heapq.heappop` does), the
`distances`/`g_score` dict as a total function with default `inf`, the
parent dict (`parents.get(cur)` defaults to `None`), the visited set as an
insertion-ordered duplicate-free list, `visited_count`, and the success
flag. -/
structure SState where
  queue : List (Cost × Node)
  dist : Node → Cost
  parents : Node → Option Node
  visited : List Node
  visitedCount : Nat
  success : Bool

/-- The minimum `(priority, node)` tuple of `x :: l` under lexicographic
order — the tuple `heapq.heappop` returns. -/
def minEntry (x : Cost × Node) (l : List (Cost × Node)) : Cost × Node :=
  l.foldl (fun m y => if y.1 < m.1 ∨ (y.1 = m.1 ∧ y.2 < m.2) then y else m) x

/-- `heapq.heappop`: remove and return the minimum tuple. -/
def popMin : List (Cost × Node) → Option ((Cost × Node) × List (Cost × Node))
  | [] => none
  | x :: xs =>
    let m := minEntry x xs
    some (m, (x :: xs).erase m)

/-- One relaxation (the body of `for neighbor in G.neighbors(current)`,
src/core/algorithms.py lines 89-102 / 137-150): skip an infinite weight;
compute the tentative distance from the base (popped key for Dijkstra,
`g_score` lookup for A*); on strict improvement update the dict, the parent,
and push `(tentative + pot neighbor, neighbor)`. -/
def relaxOne (G : Graph) (ig : Bool) (pot : Node → ℚ) (useKey : Bool)
    (c : Node) (k : Cost) (st : SState) (v : Node) : SState :=
  let w := get_best_edge_weight G c v ig
  if w = ⊤ then st
  else
    let base := if useKey then k else st.dist c
    let nd := base + w
    if nd < st.dist v then
      { st with
        dist := fun x => if x = v then nd else st.dist x,
        parents := fun x => if x = v then some c else st.parents x,
        queue := st.queue ++ [(nd + ((pot v : ℚ) : Cost), v)] }
    else st

/-- The shared main loop (src/core/algorithms.py lines 77-102 / 125-150),
with explicit fuel (the loop always terminates; `bigFuel` below is proved
sufficient): pop the minimum entry; discard stale entries (`current in
visited`); otherwise settle the node, stop successfully on the target, else
relax all neighbors. -/
def searchLoop (G : Graph) (ig : Bool) (pot : Node → ℚ) (useKey : Bool)
    (e : Node) : Nat → SState → SState
  | 0, st => st
  | fuel + 1, st =>
    match popMin st.queue with
    | none => st
    | some ((k, c), rest) =>
      if c ∈ st.visited then
        searchLoop G ig pot useKey e fuel { st with queue := rest }
      else
        let st1 : SState :=
          { st with
            queue := rest
            visited := st.visited ++ [c]
            visitedCount := st.visitedCount + 1 }
        if c = e then { st1 with success := true }
        else
          searchLoop G ig pot useKey e fuel
            ((G.neighbors c).foldl (relaxOne G ig pot useKey c k) st1)

/-- Initial state: `queue = [(0.0, start)]`, `distances = {start: 0.0}`,
`parents = {start: None}`. -/
def initState (s : Node) : SState :=
  { queue := [((0 : Cost), s)],
    dist := fun x => if x = s then (0 : Cost) else ⊤,
    parents := fun _ => none,
    visited := [], visitedCount := 0, success := false }

/-- The parent walk of `_reconstruct_path` (src/core/algorithms.py lines
57-64) before the final `reverse`, with fuel (the walk terminates for the
acyclic parent maps the search produces). -/
def walkParents (par : Node → Option Node) : Nat → Node → List Node
  | 0, c => [c]
  | fuel + 1, c =>
    c :: (match par c with
          | none => []
          | some p => walkParents par fuel p)

/-- `_reconstruct_path`: walk parent pointers from the endpoint, reverse. -/
def _reconstruct_path (par : Node → Option Node) (fuel : Nat) (endNode : Node) :
    List Node :=
  (walkParents par fuel endNode).reverse

/-- `min(visited, key=lambda n: heuristic(G, n, end))`: the first minimizer
of the (squared) heuristic over the visited nodes in ascending id order (see
the section comment on tie-breaking and `heurSq`). -/
def minByHeur (G : Graph) (e : Node) (l : List Node) : Node :=
  match l.insertionSort (· ≤ ·) with
  | [] => 0
  | x :: xs => xs.foldl (fun b n => if heurSq G n e < heurSq G b e then n else b) x

/-- The `(path, visited_count, total_dist, success)` result tuple. -/
structure SearchResult where
  path : List Node
  visitedCount : Nat
  cost : Cost
  success : Bool
deriving DecidableEq

/-- All nodes a search from `s` can ever enqueue: `s` itself, the graph's
nodes, and every edge target. -/
def searchSpace (G : Graph) (s : Node) : List Node :=
  s :: G.nodes ++ G.edges.map (fun er => er.v)

/-- Fuel provably sufficient for the loop to run to completion. -/
def bigFuel (G : Graph) (s : Node) : Nat :=
  (searchSpace G s).length * (G.edges.length + 2) + 2

/-- The tail of both searches (src/core/algorithms.py lines 104-112 /
152-159): dead `if not visited` guard, fallback target selection, cost
lookup with `inf` default, path reconstruction. -/
def extractResult (G : Graph) (e : Node) (st : SState) : SearchResult :=
  if st.visited.isEmpty then ⟨[], st.visitedCount, ⊤, false⟩
  else
    let target_node := if st.success then e else minByHeur G e st.visited
    ⟨_reconstruct_path st.parents (G.nodes.length + G.edges.length + 2) target_node,
     st.visitedCount, st.dist target_node, st.success⟩

/-- `dijkstra_search` (src/core/algorithms.py lines 66-112): priorities are
plain tentative distances (`pot = 0`) and relaxation uses the popped
`current_dist` (`useKey = true`). -/
def dijkstra_search (G : Graph) (s e : Node) (ignore_damage : Bool) : SearchResult :=
  extractResult G e
    (searchLoop G ignore_damage (fun _ => 0) true e (bigFuel G s) (initState s))

/-- `astar_search` (src/core/algorithms.py lines 114-159): priorities add
the heuristic `h` of the pushed neighbor and relaxation re-reads
`g_score.get(current, inf)` (`useKey = false`). -/
def astar_search (G : Graph) (h : Node → ℚ) (s e : Node) (ignore_damage : Bool) :
    SearchResult :=
  extractResult G e
    (searchLoop G ignore_damage h false e (bigFuel G s) (initState s))

section C3Lemmas

private lemma relax_fold_top (G : Graph) (ig : Bool) (pot : Node → ℚ)
    (uk : Bool) (c : Node) (k : Cost)
    (hnp : ∀ v, get_best_edge_weight G c v ig = ⊤) :
    ∀ (l : List Node) (st : SState), l.foldl (relaxOne G ig pot uk c k) st = st := by
  intro l
  induction l with
  | nil => intro st; rfl
  | cons v tl ih =>
    intro st
    rw [List.foldl_cons]
    have hone : relaxOne G ig pot uk c k st v = st := by
      unfold relaxOne
      rw [hnp v]
      simp
    rw [hone]
    exact ih st

end C3Lemmas

/-- Empty-edge graph for the C3 counterexample: node 0 has no neighbors at
all (hence no passable ones) and is distinct from the target 1. -/
def c3Graph : Graph := ⟨[0, 1], fun _ => some 0, fun _ => some 0, []⟩

/-- **C3 (counterexample).** On a start node with no passable neighbors and
distinct from the target, `dijkstra_search` returns the single-node path
`[start]` with cost `0.0` — not the empty path with infinite cost the claim
states: the start is always popped and settled, so the fallback target is
the start itself, whose recorded distance is `0.0` (the `if not visited`
branch returning `([], ..., inf, False)` is unreachable). -/
theorem c3_counterexample :
    dijkstra_search c3Graph 0 1 false = ⟨[0], 1, (0 : Cost), false⟩ ∧
    ([0] : List Node) ≠ [] ∧ ((0 : Cost) : Cost) ≠ ⊤ := by
  refine ⟨rfl, by decide, by decide⟩

/-- **C3 (amended).** For every graph and every start node whose outgoing
edges are all impassable (infinite resolver weight, in particular when there
are none), with the start distinct from the target, `dijkstra_search`
returns visited count 1, success false, the single-node path `[start]`, and
cost `0.0` (the recorded distance of the start, not `+∞`). -/
theorem dijkstra_no_passable_start (G : Graph) (s e : Node) (ig : Bool)
    (hnp : ∀ v, get_best_edge_weight G s v ig = ⊤) (hne : s ≠ e) :
    dijkstra_search G s e ig = ⟨[s], 1, (0 : Cost), false⟩ := by
  unfold dijkstra_search
  have hb : bigFuel G s =
      ((searchSpace G s).length * (G.edges.length + 2) + 1) + 1 := rfl
  rw [hb]
  have hpop : popMin (initState s).queue = some (((0 : Cost), s), []) := by
    unfold initState popMin minEntry
    simp [List.erase_cons_head]
  unfold searchLoop
  rw [hpop]
  dsimp only
  rw [if_neg (by simp [initState]), if_neg hne]
  rw [relax_fold_top G ig _ _ s (0 : Cost) hnp]
  unfold searchLoop
  dsimp only
  have hpop2 : popMin ([] : List (Cost × Node)) = none := rfl
  rw [hpop2]
  dsimp only
  show extractResult G e
      { queue := [], dist := fun x => if x = s then (0 : Cost) else ⊤,
        parents := fun _ => none, visited := [s], visitedCount := 1,
        success := false } = ⟨[s], 1, (0 : Cost), false⟩
  have htgt : minByHeur G e [s] = s := rfl
  unfold extractResult
  rw [if_neg (by simp)]
  dsimp only
  rw [htgt]
  have hiff : (if (false = true) then e else s) = s := by simp
  rw [hiff]
  have hpath : _reconstruct_path (fun _ => none)
      (G.nodes.length + G.edges.length + 2) s = [s] := rfl
  rw [hpath, if_pos (rfl : s = s)]

/-! ### Reachability and weight lemmas for the search proofs -/

/-- The ordered pair `(u, v)` is traversable: the resolver weight is finite. -/
def Passable (G : Graph) (ig : Bool) (u v : Node) : Prop :=
  get_best_edge_weight G u v ig ≠ ⊤

/-- Walks from `s` along passable edges, carrying the accumulated resolver
cost (all finite). -/
inductive Reaches (G : Graph) (ig : Bool) (s : Node) : Node → ℚ → Prop
  | refl : Reaches G ig s s 0
  | snoc {u v : Node} {d w : ℚ} : Reaches G ig s u d →
      get_best_edge_weight G u v ig = ((w : ℚ) : Cost) → Reaches G ig s v (d + w)

/-- `v` is reachable from `s` under the current blocking. -/
def ReachN (G : Graph) (ig : Bool) (s v : Node) : Prop :=
  ∃ d : ℚ, Reaches G ig s v d

lemma reachN_refl (G : Graph) (ig : Bool) (s : Node) : ReachN G ig s s :=
  ⟨0, Reaches.refl⟩

lemma reachN_snoc {G : Graph} {ig : Bool} {s u v : Node}
    (h : ReachN G ig s u) (hp : Passable G ig u v) : ReachN G ig s v := by
  obtain ⟨d, hd⟩ := h
  obtain ⟨w, hw⟩ := (WithTop.ne_top_iff_exists).mp hp
  exact ⟨d + w, Reaches.snoc hd hw.symm⟩

/-- All stored candidate costs are nonnegative (edge lengths are meters). -/
def WeightsNonneg (G : Graph) : Prop :=
  ∀ er ∈ G.edges, (0 : Cost) ≤ er.attrs.candidate

section WeightLemmas

private lemma foldl_min_nonneg (l : List EdgeRec) (acc : Cost)
    (hacc : 0 ≤ acc) (h : ∀ er ∈ l, (0 : Cost) ≤ er.attrs.candidate) :
    (0 : Cost) ≤ l.foldl (fun m er => min m er.attrs.candidate) acc := by
  induction l generalizing acc with
  | nil => exact hacc
  | cons er tl ih =>
    rw [List.foldl_cons]
    exact ih _ (le_min hacc (h er (List.mem_cons_self er tl)))
      (fun x hx => h x (List.mem_cons_of_mem er hx))

/-- Resolver weights are nonnegative on a nonneg-weight graph. -/
lemma gbew_nonneg {G : Graph} (hw : WeightsNonneg G) (u v : Node) (ig : Bool) :
    (0 : Cost) ≤ get_best_edge_weight G u v ig := by
  unfold get_best_edge_weight
  by_cases he : (G.edgeData u v).isEmpty
  · rw [if_pos he]; exact le_top
  · rw [if_neg he]
    by_cases hflag : ((G.edgeData u v).foldl (gbewStep ig) ((⊤ : Cost), false)).2 = true
    · have hfold : (G.edgeData u v).foldl
          (fun (acc : Cost × Bool) (er : EdgeRec) =>
            if !ig && er.attrs.blockedTruthy then acc
            else
              let w := er.attrs.candidate
              if w < acc.1 then (w, true) else acc)
          ((⊤ : Cost), false) =
          (G.edgeData u v).foldl (gbewStep ig) ((⊤ : Cost), false) := rfl
      rw [hfold]
      rw [if_pos hflag]
      rw [gbew_fold_fst ig (G.edgeData u v) ((⊤ : Cost), false)]
      apply foldl_min_nonneg _ _ le_top
      intro er hm
      exact hw er (List.mem_filter.mp (List.mem_filter.mp hm).1).1
    · have hfold : (G.edgeData u v).foldl
          (fun (acc : Cost × Bool) (er : EdgeRec) =>
            if !ig && er.attrs.blockedTruthy then acc
            else
              let w := er.attrs.candidate
              if w < acc.1 then (w, true) else acc)
          ((⊤ : Cost), false) =
          (G.edgeData u v).foldl (gbewStep ig) ((⊤ : Cost), false) := rfl
      rw [hfold]
      rw [if_neg hflag]
      exact le_top

/-- Walk costs are nonnegative on a nonneg-weight graph. -/
lemma reaches_cost_nonneg {G : Graph} (hw : WeightsNonneg G) {ig : Bool}
    {s v : Node} {d : ℚ} (h : Reaches G ig s v d) : 0 ≤ d := by
  induction h with
  | refl => exact le_refl 0
  | @snoc u v' d' w' _ hgb ih =>
    have h0 : (0 : Cost) ≤ ((w' : ℚ) : Cost) := hgb ▸ gbew_nonneg hw u v' ig
    have : (0 : ℚ) ≤ w' := by exact_mod_cast h0
    linarith

lemma firstDedup_mem (x : Node) :
    ∀ (l seen : List Node), x ∈ firstDedup seen l ↔ (x ∈ l ∧ x ∉ seen) := by
  intro l
  induction l with
  | nil => intro seen; simp [firstDedup]
  | cons y tl ih =>
    intro seen
    unfold firstDedup
    by_cases hy : y ∈ seen
    · rw [if_pos hy, ih seen]
      constructor
      · rintro ⟨h1, h2⟩
        exact ⟨List.mem_cons_of_mem y h1, h2⟩
      · rintro ⟨h1, h2⟩
        rcases List.mem_cons.mp h1 with rfl | h1'
        · exact absurd hy h2
        · exact ⟨h1', h2⟩
    · rw [if_neg hy]
      constructor
      · intro hm
        rcases List.mem_cons.mp hm with rfl | hm'
        · exact ⟨List.mem_cons_self x tl, hy⟩
        · obtain ⟨h1, h2⟩ := (ih (y :: seen)).mp hm'
          refine ⟨List.mem_cons_of_mem y h1, fun hix => h2 (List.mem_cons_of_mem y hix)⟩
      · rintro ⟨h1, h2⟩
        rcases List.mem_cons.mp h1 with rfl | h1'
        · exact List.mem_cons_self x _
        · by_cases hxy : x = y
          · subst hxy; exact List.mem_cons_self x _
          · exact List.mem_cons_of_mem y
              ((ih (y :: seen)).mpr ⟨h1', fun hm => by
                rcases List.mem_cons.mp hm with h | h
                · exact hxy h
                · exact h2 h⟩)

/-- A passable target is among the enumerated neighbors. -/
lemma passable_mem_neighbors {G : Graph} {ig : Bool} {u v : Node}
    (h : Passable G ig u v) : v ∈ G.neighbors u := by
  unfold Passable get_best_edge_weight at h
  by_cases he : (G.edgeData u v).isEmpty
  · rw [if_pos he] at h; exact absurd rfl h
  · have hne : G.edgeData u v ≠ [] := fun h0 => he (by rw [h0]; rfl)
    obtain ⟨er, hmem⟩ := List.exists_mem_of_ne_nil _ hne
    have hf := List.mem_filter.mp hmem
    have huv : er.u = u ∧ er.v = v := by
      have := hf.2; simp only [Bool.and_eq_true, decide_eq_true_eq] at this; exact this
    unfold Graph.neighbors
    rw [firstDedup_mem]
    refine ⟨?_, List.not_mem_nil v⟩
    rw [List.mem_map]
    exact ⟨er, List.mem_filter.mpr ⟨hf.1, by simp [huv.1]⟩, huv.2⟩

/-- Neighbors live in the search space. -/
lemma neighbors_sub_space {G : Graph} {u v : Node} (s : Node)
    (h : v ∈ G.neighbors u) : v ∈ searchSpace G s := by
  unfold Graph.neighbors at h
  rw [firstDedup_mem] at h
  obtain ⟨er, hmem, rfl⟩ := List.mem_map.mp h.1
  unfold searchSpace
  rw [List.mem_append]
  right
  exact List.mem_map.mpr ⟨er, (List.mem_filter.mp hmem).1, rfl⟩

end WeightLemmas

/-! ### `popMin` properties -/

section PopMinLemmas

private lemma minEntry_mem (x : Cost × Node) (l : List (Cost × Node)) :
    minEntry x l ∈ x :: l := by
  unfold minEntry
  induction l generalizing x with
  | nil => exact List.mem_cons_self x []
  | cons y tl ih =>
    rw [List.foldl_cons]
    by_cases hc : y.1 < x.1 ∨ (y.1 = x.1 ∧ y.2 < x.2)
    · rw [if_pos hc]
      have := ih y
      rcases List.mem_cons.mp this with h | h
      · rw [h]; exact List.mem_cons_of_mem x (List.mem_cons_self y tl)
      · exact List.mem_cons_of_mem x (List.mem_cons_of_mem y h)
    · rw [if_neg hc]
      have := ih x
      rcases List.mem_cons.mp this with h | h
      · rw [h]; exact List.mem_cons_self x _
      · exact List.mem_cons_of_mem x (List.mem_cons_of_mem y h)

private def pStep (m y : Cost × Node) : Cost × Node :=
  if y.1 < m.1 ∨ (y.1 = m.1 ∧ y.2 < m.2) then y else m

private lemma minEntry_eq_foldl (x : Cost × Node) (l : List (Cost × Node)) :
    minEntry x l = l.foldl pStep x := rfl

private lemma pStep_fst_le (m y : Cost × Node) : (pStep m y).1 ≤ m.1 := by
  unfold pStep
  split
  · rcases ‹y.1 < m.1 ∨ (y.1 = m.1 ∧ y.2 < m.2)› with h | ⟨h, _⟩
    · exact le_of_lt h
    · exact le_of_eq h
  · exact le_refl _

private lemma pStep_fst_le_arg (m y : Cost × Node) : (pStep m y).1 ≤ y.1 := by
  unfold pStep
  split
  · exact le_refl _
  · rename_i hc
    push_neg at hc
    exact hc.1

private lemma foldl_pStep_le_init (l : List (Cost × Node)) (x : Cost × Node) :
    (l.foldl pStep x).1 ≤ x.1 := by
  induction l generalizing x with
  | nil => exact le_refl _
  | cons z tl ih =>
    rw [List.foldl_cons]
    exact le_trans (ih (pStep x z)) (pStep_fst_le x z)

private lemma foldl_pStep_le_mem (l : List (Cost × Node)) (x : Cost × Node) :
    ∀ y ∈ l, (l.foldl pStep x).1 ≤ y.1 := by
  induction l generalizing x with
  | nil => intro y hy; exact absurd hy (List.not_mem_nil y)
  | cons z tl ih =>
    intro y hy
    rw [List.foldl_cons]
    rcases List.mem_cons.mp hy with rfl | hy'
    · exact le_trans (foldl_pStep_le_init tl (pStep x y)) (pStep_fst_le_arg x y)
    · exact ih (pStep x z) y hy'

private lemma minEntry_le (x : Cost × Node) (l : List (Cost × Node)) :
    ∀ y ∈ x :: l, (minEntry x l).1 ≤ y.1 := by
  intro y hy
  rw [minEntry_eq_foldl]
  rcases List.mem_cons.mp hy with rfl | hy'
  · exact foldl_pStep_le_init l y
  · exact foldl_pStep_le_mem l x y hy'

lemma popMin_none_iff (q : List (Cost × Node)) : popMin q = none ↔ q = [] := by
  cases q with
  | nil => simp [popMin]
  | cons x xs => simp [popMin]

lemma popMin_spec (q : List (Cost × Node)) (m : Cost × Node)
    (rest : List (Cost × Node)) (h : popMin q = some (m, rest)) :
    m ∈ q ∧ rest = q.erase m ∧ ∀ y ∈ q, m.1 ≤ y.1 := by
  cases q with
  | nil => exact absurd h (by simp [popMin])
  | cons x xs =>
    unfold popMin at h
    have h' := Option.some.inj h
    have hm : minEntry x xs = m := congrArg Prod.fst h'
    have hr : (x :: xs).erase (minEntry x xs) = rest := congrArg Prod.snd h'
    subst hm
    refine ⟨minEntry_mem x xs, hr.symm, minEntry_le x xs⟩

end PopMinLemmas

/-! ### The search-loop invariant -/

/-- Invariant of the main loop (holding between iterations, while `success`
is still false).  `dist` is the `distances`/`g_score` dict, `pot` the pushed
potential (0 for Dijkstra, the heuristic for A*). -/
structure LoopInv (G : Graph) (ig : Bool) (pot : Node → ℚ) (s e : Node)
    (st : SState) : Prop where
  qTop : ∀ p ∈ st.queue, st.dist p.2 ≠ ⊤
  qLower : ∀ p ∈ st.queue, st.dist p.2 + ((pot p.2 : ℚ) : Cost) ≤ p.1
  qReach : ∀ p ∈ st.queue, ReachN G ig s p.2
  qSpace : ∀ p ∈ st.queue, p.2 ∈ searchSpace G s
  entry : ∀ v, v ∉ st.visited → st.dist v ≠ ⊤ →
      (st.dist v + ((pot v : ℚ) : Cost), v) ∈ st.queue
  vNodup : st.visited.Nodup
  vCount : st.visitedCount = st.visited.length
  vReach : ∀ v ∈ st.visited, ReachN G ig s v
  vTop : ∀ v ∈ st.visited, st.dist v ≠ ⊤
  vSpace : ∀ v ∈ st.visited, v ∈ searchSpace G s
  distS : st.dist s ≤ 0
  achieve : ∀ v, st.dist v ≠ ⊤ →
      ∃ d : ℚ, Reaches G ig s v d ∧ st.dist v = ((d : ℚ) : Cost)
  relaxed : ∀ u ∈ st.visited, ∀ v, Passable G ig u v →
      st.dist v ≤ st.dist u + get_best_edge_weight G u v ig
  settledLe : ∀ u ∈ st.visited, ∀ p ∈ st.queue,
      st.dist u + ((pot u : ℚ) : Cost) ≤ p.1
  opt : ∀ v ∈ st.visited, ∀ d : ℚ, Reaches G ig s v d → st.dist v ≤ ((d : ℚ) : Cost)
  succFalse : st.success = false
  eNotVis : e ∉ st.visited

/-- What holds of the state the loop finally returns. -/
structure FinalInv (G : Graph) (ig : Bool) (s e : Node) (st : SState) : Prop where
  vNodup : st.visited.Nodup
  vCount : st.visitedCount = st.visited.length
  vReach : ∀ v ∈ st.visited, ReachN G ig s v
  vTop : ∀ v ∈ st.visited, st.dist v ≠ ⊤
  achieve : ∀ v, st.dist v ≠ ⊤ →
      ∃ d : ℚ, Reaches G ig s v d ∧ st.dist v = ((d : ℚ) : Cost)
  opt : ∀ v ∈ st.visited, ∀ d : ℚ, Reaches G ig s v d → st.dist v ≤ ((d : ℚ) : Cost)
  ends : (st.success = false ∧ e ∉ st.visited ∧
            ∀ v, ReachN G ig s v → v ∈ st.visited) ∨
         (st.success = true ∧ e ∈ st.visited)

section InvariantLemmas

variable {G : Graph} {ig : Bool} {pot : Node → ℚ} {s e : Node}

lemma dist_s_ne_top {st : SState} (h : st.dist s ≤ 0) : st.dist s ≠ ⊤ := by
  intro htop
  rw [htop] at h
  simp at h

/-- With an empty queue the visited set is closed under passable edges and
contains everything reachable. -/
lemma loopInv_closure {st : SState} (hInv : LoopInv G ig pot s e st)
    (hq : st.queue = []) : ∀ v, ReachN G ig s v → v ∈ st.visited := by
  have hsv : s ∈ st.visited := by
    by_contra hs
    have hd : st.dist s ≠ ⊤ := dist_s_ne_top hInv.distS
    have := hInv.entry s hs hd
    rw [hq] at this
    exact absurd this (List.not_mem_nil _)
  rintro v ⟨d, hd⟩
  induction hd with
  | refl => exact hsv
  | @snoc u v' d' w' hr hgb ih =>
    have hu : u ∈ st.visited := ih
    have hp : Passable G ig u v' := by
      unfold Passable
      rw [hgb]
      exact WithTop.coe_ne_top
    have hrel := hInv.relaxed u hu v' hp
    have hfin : st.dist v' ≠ ⊤ := by
      apply ne_top_of_le_ne_top _ hrel
      rw [hgb]
      exact WithTop.add_ne_top.mpr ⟨hInv.vTop u hu, WithTop.coe_ne_top⟩
    by_cases hv : v' ∈ st.visited
    · exact hv
    · have := hInv.entry v' hv hfin
      rw [hq] at this
      exact absurd this (List.not_mem_nil _)

/-- The frontier-crossing lemma: every walk either ends in a settled node of
no greater recorded distance, or passes through a fringe node whose
`dist + pot` lower-bounds the walk's cost plus the endpoint's potential. -/
lemma frontier {st : SState} (hInv : LoopInv G ig pot s e st)
    (hpc : ∀ u v, Passable G ig u v →
      ((pot u : ℚ) : Cost) ≤ get_best_edge_weight G u v ig + ((pot v : ℚ) : Cost)) :
    ∀ z (d : ℚ), Reaches G ig s z d →
      (z ∈ st.visited ∧ st.dist z ≤ ((d : ℚ) : Cost)) ∨
      (∃ y, y ∉ st.visited ∧ st.dist y ≠ ⊤ ∧
        st.dist y + ((pot y : ℚ) : Cost) ≤ ((d : ℚ) : Cost) + ((pot z : ℚ) : Cost)) := by
  intro z d hd
  induction hd with
  | refl =>
    by_cases hs : s ∈ st.visited
    · left
      refine ⟨hs, ?_⟩
      rw [WithTop.coe_zero]
      exact hInv.distS
    · right
      refine ⟨s, hs, dist_s_ne_top hInv.distS, ?_⟩
      apply add_le_add_right
      rw [WithTop.coe_zero]
      exact hInv.distS
  | @snoc u v' d' w' hr hgb ih =>
    have hp : Passable G ig u v' := by
      unfold Passable; rw [hgb]; exact WithTop.coe_ne_top
    have hstep : ((pot u : ℚ) : Cost) ≤ ((w' : ℚ) : Cost) + ((pot v' : ℚ) : Cost) := by
      have := hpc u v' hp
      rwa [hgb] at this
    rcases ih with ⟨hu, hdu⟩ | ⟨y, hy1, hy2, hy3⟩
    · have hrel := hInv.relaxed u hu v' hp
      have hdv : st.dist v' ≤ ((d' + w' : ℚ) : Cost) := by
        calc st.dist v' ≤ st.dist u + get_best_edge_weight G u v' ig := hrel
        _ ≤ ((d' : ℚ) : Cost) + ((w' : ℚ) : Cost) := by
            rw [hgb]; exact add_le_add_right hdu _
        _ = ((d' + w' : ℚ) : Cost) := by rw [WithTop.coe_add]
      by_cases hv : v' ∈ st.visited
      · exact Or.inl ⟨hv, hdv⟩
      · refine Or.inr ⟨v', hv, ne_top_of_le_ne_top WithTop.coe_ne_top hdv, ?_⟩
        exact add_le_add_right hdv _
    · refine Or.inr ⟨y, hy1, hy2, ?_⟩
      calc st.dist y + ((pot y : ℚ) : Cost)
          ≤ ((d' : ℚ) : Cost) + ((pot u : ℚ) : Cost) := hy3
      _ ≤ ((d' : ℚ) : Cost) + (((w' : ℚ) : Cost) + ((pot v' : ℚ) : Cost)) :=
          add_le_add_left hstep _
      _ = ((d' + w' : ℚ) : Cost) + ((pot v' : ℚ) : Cost) := by
          rw [WithTop.coe_add, add_assoc]

/-- When an unvisited node is popped, its recorded distance is optimal. -/
lemma pop_opt {st : SState} (hInv : LoopInv G ig pot s e st)
    (hpc : ∀ u v, Passable G ig u v →
      ((pot u : ℚ) : Cost) ≤ get_best_edge_weight G u v ig + ((pot v : ℚ) : Cost))
    {k : Cost} {c : Node} (hk : (k, c) ∈ st.queue) (hc : c ∉ st.visited)
    (hmin : ∀ p ∈ st.queue, k ≤ p.1) :
    ∀ d : ℚ, Reaches G ig s c d → st.dist c ≤ ((d : ℚ) : Cost) := by
  intro d hd
  rcases frontier hInv hpc c d hd with ⟨hcv, _⟩ | ⟨y, hy1, hy2, hy3⟩
  · exact absurd hcv hc
  · have hyq := hInv.entry y hy1 hy2
    have h1 : k ≤ st.dist y + ((pot y : ℚ) : Cost) := hmin _ hyq
    have h2 : st.dist c + ((pot c : ℚ) : Cost) ≤ k := hInv.qLower (k, c) hk
    have h3 : st.dist c + ((pot c : ℚ) : Cost) ≤
        ((d : ℚ) : Cost) + ((pot c : ℚ) : Cost) := le_trans (le_trans h2 h1) hy3
    exact (WithTop.add_le_add_iff_right WithTop.coe_ne_top).mp h3

end InvariantLemmas

/-- Invariant holding during the relaxation fold of one visit of `c` popped
with key `k`; `done` records the already-relaxed neighbors. -/
structure MidInv (G : Graph) (ig : Bool) (pot : Node → ℚ) (useKey : Bool)
    (s e c : Node) (k : Cost) (done : List Node) (st : SState) : Prop where
  qTop : ∀ p ∈ st.queue, st.dist p.2 ≠ ⊤
  qLower : ∀ p ∈ st.queue, st.dist p.2 + ((pot p.2 : ℚ) : Cost) ≤ p.1
  qReach : ∀ p ∈ st.queue, ReachN G ig s p.2
  qSpace : ∀ p ∈ st.queue, p.2 ∈ searchSpace G s
  entry : ∀ v, v ∉ st.visited → st.dist v ≠ ⊤ →
      (st.dist v + ((pot v : ℚ) : Cost), v) ∈ st.queue
  vNodup : st.visited.Nodup
  vCount : st.visitedCount = st.visited.length
  vReach : ∀ v ∈ st.visited, ReachN G ig s v
  vTop : ∀ v ∈ st.visited, st.dist v ≠ ⊤
  vSpace : ∀ v ∈ st.visited, v ∈ searchSpace G s
  distS : st.dist s ≤ 0
  achieve : ∀ v, st.dist v ≠ ⊤ →
      ∃ d : ℚ, Reaches G ig s v d ∧ st.dist v = ((d : ℚ) : Cost)
  settledLe : ∀ u ∈ st.visited, ∀ p ∈ st.queue,
      st.dist u + ((pot u : ℚ) : Cost) ≤ p.1
  settledC : ∀ u ∈ st.visited,
      st.dist u + ((pot u : ℚ) : Cost) ≤ st.dist c + ((pot c : ℚ) : Cost)
  opt : ∀ v ∈ st.visited, ∀ d : ℚ, Reaches G ig s v d → st.dist v ≤ ((d : ℚ) : Cost)
  relaxedOld : ∀ u ∈ st.visited, u ≠ c → ∀ v, Passable G ig u v →
      st.dist v ≤ st.dist u + get_best_edge_weight G u v ig
  relaxedDone : ∀ v ∈ done, Passable G ig c v →
      st.dist v ≤ st.dist c + get_best_edge_weight G c v ig
  succFalse : st.success = false
  eNotVis : e ∉ st.visited
  cVis : c ∈ st.visited
  kEq : useKey = true → k = st.dist c

section RelaxLemmas

variable {G : Graph} {ig : Bool} {pot : Node → ℚ} {useKey : Bool} {s e : Node}

/-- One relaxation step preserves `MidInv`, extending `done` by the relaxed
neighbor. -/
lemma relax_step
    (hpc : ∀ u v, Passable G ig u v →
      ((pot u : ℚ) : Cost) ≤ get_best_edge_weight G u v ig + ((pot v : ℚ) : Cost))
    {c : Node} {k : Cost} {done : List Node} {st : SState} {v : Node}
    (hvnb : v ∈ G.neighbors c)
    (hmid : MidInv G ig pot useKey s e c k done st) :
    MidInv G ig pot useKey s e c k (done ++ [v])
      (relaxOne G ig pot useKey c k st v) := by
  unfold relaxOne
  dsimp only
  by_cases htop : get_best_edge_weight G c v ig = ⊤
  · rw [if_pos htop]
    refine { hmid with relaxedDone := ?_ }
    intro z hz hp
    rcases List.mem_append.mp hz with hz' | hz'
    · exact hmid.relaxedDone z hz' hp
    · rw [List.mem_singleton.mp hz'] at hp
      exact absurd htop hp
  · rw [if_neg htop]
    have hbase : (if useKey = true then k else st.dist c) = st.dist c := by
      cases useKey with
      | false => rfl
      | true => rw [if_pos rfl]; exact hmid.kEq rfl
    rw [hbase]
    by_cases hlt : st.dist c + get_best_edge_weight G c v ig < st.dist v
    · rw [if_pos hlt]
      obtain ⟨wq, hwq⟩ := WithTop.ne_top_iff_exists.mp htop
      have hcP : Passable G ig c v := htop
      have hDcTop : st.dist c ≠ ⊤ := hmid.vTop c hmid.cVis
      have hndTop : st.dist c + get_best_edge_weight G c v ig ≠ ⊤ :=
        WithTop.add_ne_top.mpr ⟨hDcTop, htop⟩
      have hchain : st.dist c + ((pot c : ℚ) : Cost) ≤
          (st.dist c + get_best_edge_weight G c v ig) + ((pot v : ℚ) : Cost) := by
        rw [add_assoc]
        exact add_le_add_left (hpc c v hcP) _
      have hvs : v ∉ st.visited := by
        intro hvv
        have h1 := hmid.settledC v hvv
        have h5 : st.dist v ≤ st.dist c + get_best_edge_weight G c v ig :=
          (WithTop.add_le_add_iff_right WithTop.coe_ne_top).mp (le_trans h1 hchain)
        exact absurd hlt (not_lt.mpr h5)
      have hDvis : ∀ u ∈ st.visited,
          (if u = v then st.dist c + get_best_edge_weight G c v ig else st.dist u) =
            st.dist u := by
        intro u hu
        rw [if_neg (fun h => hvs (by rw [← h]; exact hu))]
      have hDle : ∀ x,
          (if x = v then st.dist c + get_best_edge_weight G c v ig else st.dist x) ≤
            st.dist x := by
        intro x
        by_cases hx : x = v
        · rw [if_pos hx, hx]; exact le_of_lt hlt
        · rw [if_neg hx]
      refine {
        qTop := ?_, qLower := ?_, qReach := ?_, qSpace := ?_, entry := ?_,
        vNodup := hmid.vNodup, vCount := hmid.vCount, vReach := hmid.vReach,
        vTop := ?_, vSpace := hmid.vSpace, distS := ?_, achieve := ?_,
        settledLe := ?_, settledC := ?_, opt := ?_, relaxedOld := ?_,
        relaxedDone := ?_, succFalse := hmid.succFalse, eNotVis := hmid.eNotVis,
        cVis := hmid.cVis, kEq := ?_ }
      · -- qTop
        intro p hp
        rcases List.mem_append.mp hp with hp' | hp'
        · by_cases hx : p.2 = v
          · dsimp only; rw [if_pos hx]; exact hndTop
          · dsimp only; rw [if_neg hx]; exact hmid.qTop p hp'
        · rw [List.mem_singleton.mp hp']
          dsimp only; rw [if_pos rfl]; exact hndTop
      · -- qLower
        intro p hp
        rcases List.mem_append.mp hp with hp' | hp'
        · by_cases hx : p.2 = v
          · dsimp only; rw [if_pos hx]
            refine le_trans (add_le_add_right ?_ _) (hmid.qLower p hp')
            rw [hx]
            exact le_of_lt hlt
          · dsimp only; rw [if_neg hx]; exact hmid.qLower p hp'
        · rw [List.mem_singleton.mp hp']
          dsimp only; rw [if_pos rfl]
      · -- qReach
        intro p hp
        rcases List.mem_append.mp hp with hp' | hp'
        · exact hmid.qReach p hp'
        · rw [List.mem_singleton.mp hp']
          exact reachN_snoc (hmid.vReach c hmid.cVis) hcP
      · -- qSpace
        intro p hp
        rcases List.mem_append.mp hp with hp' | hp'
        · exact hmid.qSpace p hp'
        · rw [List.mem_singleton.mp hp']
          exact neighbors_sub_space s hvnb
      · -- entry
        intro z hz hd
        dsimp only at hd ⊢
        by_cases hx : z = v
        · subst hx
          rw [if_pos rfl]
          apply List.mem_append.mpr
          right
          exact List.mem_singleton.mpr rfl
        · rw [if_neg hx] at hd ⊢
          exact List.mem_append.mpr (Or.inl (hmid.entry z hz hd))
      · -- vTop
        intro u hu
        dsimp only
        rw [hDvis u hu]
        exact hmid.vTop u hu
      · -- distS
        dsimp only
        exact le_trans (hDle s) hmid.distS
      · -- achieve
        intro z hd
        dsimp only at hd ⊢
        by_cases hx : z = v
        · subst hx
          rw [if_pos rfl] at hd ⊢
          obtain ⟨dc, hwalk, hdc⟩ := hmid.achieve c hDcTop
          refine ⟨dc + wq, Reaches.snoc hwalk hwq.symm, ?_⟩
          rw [WithTop.coe_add, ← hdc, ← hwq]
        · rw [if_neg hx] at hd ⊢
          exact hmid.achieve z hd
      · -- settledLe
        intro u hu p hp
        dsimp only
        rw [hDvis u hu]
        rcases List.mem_append.mp hp with hp' | hp'
        · exact hmid.settledLe u hu p hp'
        · rw [List.mem_singleton.mp hp']
          exact le_trans (hmid.settledC u hu) hchain
      · -- settledC
        intro u hu
        dsimp only
        rw [hDvis u hu, hDvis c hmid.cVis]
        exact hmid.settledC u hu
      · -- opt
        intro u hu d hd
        dsimp only
        rw [hDvis u hu]
        exact hmid.opt u hu d hd
      · -- relaxedOld
        intro u hu huc z hp
        dsimp only
        rw [hDvis u hu]
        exact le_trans (hDle z) (hmid.relaxedOld u hu huc z hp)
      · -- relaxedDone
        intro z hz hp
        dsimp only
        rw [hDvis c hmid.cVis]
        rcases List.mem_append.mp hz with hz' | hz'
        · exact le_trans (hDle z) (hmid.relaxedDone z hz' hp)
        · rw [List.mem_singleton.mp hz']
          rw [if_pos rfl]
      · -- kEq
        intro hk
        dsimp only
        rw [hDvis c hmid.cVis]
        exact hmid.kEq hk
    · rw [if_neg hlt]
      refine { hmid with relaxedDone := ?_ }
      intro z hz hp
      rcases List.mem_append.mp hz with hz' | hz'
      · exact hmid.relaxedDone z hz' hp
      · rw [List.mem_singleton.mp hz']
        exact not_lt.mp hlt

lemma relaxOne_visited {c : Node} {k : Cost} {st : SState} {v : Node} :
    (relaxOne G ig pot useKey c k st v).visited = st.visited := by
  unfold relaxOne
  dsimp only
  split_ifs <;> rfl

lemma relaxOne_queue_len {c : Node} {k : Cost} {st : SState} {v : Node} :
    (relaxOne G ig pot useKey c k st v).queue.length ≤ st.queue.length + 1 := by
  unfold relaxOne
  dsimp only
  split_ifs <;> simp [List.length_append]

lemma relax_fold_visited {c : Node} {k : Cost} :
    ∀ (l : List Node) (st : SState),
      (l.foldl (relaxOne G ig pot useKey c k) st).visited = st.visited := by
  intro l
  induction l with
  | nil => intro st; rfl
  | cons v tl ih =>
    intro st
    rw [List.foldl_cons, ih, relaxOne_visited]

lemma relax_fold_queue_len {c : Node} {k : Cost} :
    ∀ (l : List Node) (st : SState),
      (l.foldl (relaxOne G ig pot useKey c k) st).queue.length ≤
        st.queue.length + l.length := by
  intro l
  induction l with
  | nil => intro st; simp
  | cons v tl ih =>
    intro st
    rw [List.foldl_cons]
    have h1 := ih (relaxOne G ig pot useKey c k st v)
    have h2 := @relaxOne_queue_len G ig pot useKey c k st v
    simp only [List.length_cons]
    omega

lemma relax_fold (hpc : ∀ u v, Passable G ig u v →
      ((pot u : ℚ) : Cost) ≤ get_best_edge_weight G u v ig + ((pot v : ℚ) : Cost))
    {c : Node} {k : Cost} :
    ∀ (l : List Node) (done : List Node) (st : SState),
      (∀ v ∈ l, v ∈ G.neighbors c) →
      MidInv G ig pot useKey s e c k done st →
      MidInv G ig pot useKey s e c k (done ++ l)
        (l.foldl (relaxOne G ig pot useKey c k) st) := by
  intro l
  induction l with
  | nil => intro done st _ hmid; simpa using hmid
  | cons v tl ih =>
    intro done st hsub hmid
    rw [List.foldl_cons]
    have h1 := relax_step hpc (hsub v (List.mem_cons_self v tl)) hmid
    have h2 := ih (done ++ [v]) _ (fun z hz => hsub z (List.mem_cons_of_mem v hz)) h1
    rwa [List.append_assoc, List.singleton_append] at h2

lemma midInv_to_loopInv {c : Node} {k : Cost} {done : List Node} {st : SState}
    (hmid : MidInv G ig pot useKey s e c k done st)
    (hdone : ∀ v, Passable G ig c v → v ∈ done) :
    LoopInv G ig pot s e st :=
  { qTop := hmid.qTop, qLower := hmid.qLower, qReach := hmid.qReach,
    qSpace := hmid.qSpace, entry := hmid.entry, vNodup := hmid.vNodup,
    vCount := hmid.vCount, vReach := hmid.vReach, vTop := hmid.vTop,
    vSpace := hmid.vSpace, distS := hmid.distS, achieve := hmid.achieve,
    relaxed := by
      intro u hu z hp
      by_cases huc : u = c
      · subst huc
        exact hmid.relaxedDone z (hdone z hp) hp
      · exact hmid.relaxedOld u hu huc z hp,
    settledLe := hmid.settledLe, opt := hmid.opt, succFalse := hmid.succFalse,
    eNotVis := hmid.eNotVis }

lemma loopInv_stale {st : SState} {k : Cost} {c : Node} {rest : List (Cost × Node)}
    (hInv : LoopInv G ig pot s e st)
    (hmem : (k, c) ∈ st.queue) (hrest : rest = st.queue.erase (k, c))
    (hcv : c ∈ st.visited) :
    LoopInv G ig pot s e { st with queue := rest } := by
  have hsub : ∀ p ∈ rest, p ∈ st.queue := by
    rw [hrest]
    exact fun p hp => List.erase_subset _ _ hp
  refine
    { qTop := fun p hp => hInv.qTop p (hsub p hp),
      qLower := fun p hp => hInv.qLower p (hsub p hp),
      qReach := fun p hp => hInv.qReach p (hsub p hp),
      qSpace := fun p hp => hInv.qSpace p (hsub p hp),
      entry := ?_,
      vNodup := hInv.vNodup, vCount := hInv.vCount, vReach := hInv.vReach,
      vTop := hInv.vTop, vSpace := hInv.vSpace, distS := hInv.distS,
      achieve := hInv.achieve, relaxed := hInv.relaxed,
      settledLe := fun u hu p hp => hInv.settledLe u hu p (hsub p hp),
      opt := hInv.opt, succFalse := hInv.succFalse, eNotVis := hInv.eNotVis }
  intro v hv hd
  have hin := hInv.entry v hv hd
  dsimp only
  rw [hrest]
  refine (List.mem_erase_of_ne ?_).mpr hin
  intro hEq
  have hvc : v = c := congrArg Prod.snd hEq
  exact hv (by rw [hvc]; exact hcv)

lemma visit_midInv {st : SState} {k : Cost} {c : Node} {rest : List (Cost × Node)}
    (hInv : LoopInv G ig pot s e st)
    (hpc : ∀ u v, Passable G ig u v →
      ((pot u : ℚ) : Cost) ≤ get_best_edge_weight G u v ig + ((pot v : ℚ) : Cost))
    (huse : useKey = true → ∀ n, pot n = (0 : ℚ))
    (hmem : (k, c) ∈ st.queue) (hrest : rest = st.queue.erase (k, c))
    (hmin : ∀ p ∈ st.queue, k ≤ p.1)
    (hcv : c ∉ st.visited) (hce : c ≠ e) :
    MidInv G ig pot useKey s e c k []
      { st with
        queue := rest
        visited := st.visited ++ [c]
        visitedCount := st.visitedCount + 1 } := by
  have hDcTop : st.dist c ≠ ⊤ := hInv.qTop (k, c) hmem
  have hcentry : (st.dist c + ((pot c : ℚ) : Cost), c) ∈ st.queue :=
    hInv.entry c hcv hDcTop
  have hrsub : ∀ p ∈ rest, p ∈ st.queue := by
    rw [hrest]
    exact fun p hp => List.erase_subset _ _ hp
  refine
    { qTop := fun p hp => hInv.qTop p (hrsub p hp),
      qLower := fun p hp => hInv.qLower p (hrsub p hp),
      qReach := fun p hp => hInv.qReach p (hrsub p hp),
      qSpace := fun p hp => hInv.qSpace p (hrsub p hp),
      entry := ?_, vNodup := ?_, vCount := ?_, vReach := ?_, vTop := ?_,
      vSpace := ?_, distS := hInv.distS, achieve := hInv.achieve,
      settledLe := ?_, settledC := ?_, opt := ?_, relaxedOld := ?_,
      relaxedDone := ?_, succFalse := hInv.succFalse, eNotVis := ?_,
      cVis := ?_, kEq := ?_ }
  · -- entry
    intro z hz hd
    dsimp only at hz ⊢
    rw [List.mem_append, List.mem_singleton] at hz
    push_neg at hz
    have hin := hInv.entry z hz.1 hd
    rw [hrest]
    refine (List.mem_erase_of_ne ?_).mpr hin
    intro hEq
    exact hz.2 (congrArg Prod.snd hEq)
  · -- vNodup
    dsimp only
    exact hInv.vNodup.append (List.nodup_singleton c)
      (fun a ha hb => hcv (by rw [← List.mem_singleton.mp hb]; exact ha))
  · -- vCount
    dsimp only
    rw [List.length_append, List.length_singleton, hInv.vCount]
  · -- vReach
    intro z hz
    dsimp only at hz
    rw [List.mem_append, List.mem_singleton] at hz
    rcases hz with hz | rfl
    · exact hInv.vReach z hz
    · exact hInv.qReach (k, z) hmem
  · -- vTop
    intro z hz
    dsimp only at hz
    rw [List.mem_append, List.mem_singleton] at hz
    rcases hz with hz | rfl
    · exact hInv.vTop z hz
    · exact hDcTop
  · -- vSpace
    intro z hz
    dsimp only at hz
    rw [List.mem_append, List.mem_singleton] at hz
    rcases hz with hz | rfl
    · exact hInv.vSpace z hz
    · exact hInv.qSpace (k, z) hmem
  · -- settledLe
    intro u hu p hp
    dsimp only at hu
    rw [List.mem_append, List.mem_singleton] at hu
    rcases hu with hu | rfl
    · exact hInv.settledLe u hu p (hrsub p hp)
    · exact le_trans (hInv.qLower (k, u) hmem) (hmin p (hrsub p hp))
  · -- settledC
    intro u hu
    dsimp only at hu
    rw [List.mem_append, List.mem_singleton] at hu
    rcases hu with hu | rfl
    · exact hInv.settledLe u hu _ hcentry
    · exact le_refl _
  · -- opt
    intro z hz d hd
    dsimp only at hz
    rw [List.mem_append, List.mem_singleton] at hz
    rcases hz with hz | rfl
    · exact hInv.opt z hz d hd
    · exact pop_opt hInv hpc hmem hcv hmin d hd
  · -- relaxedOld
    intro u hu huc z hp
    dsimp only at hu
    rw [List.mem_append, List.mem_singleton] at hu
    rcases hu with hu | rfl
    · exact hInv.relaxed u hu z hp
    · exact absurd rfl huc
  · -- relaxedDone
    intro z hz
    exact absurd hz (List.not_mem_nil z)
  · -- eNotVis
    dsimp only
    rw [List.mem_append, List.mem_singleton]
    push_neg
    exact ⟨hInv.eNotVis, fun h => hce h.symm⟩
  · -- cVis
    dsimp only
    rw [List.mem_append, List.mem_singleton]
    exact Or.inr rfl
  · -- kEq
    intro hk
    have hz := huse hk
    have h1 : st.dist c ≤ k := by
      have := hInv.qLower (k, c) hmem
      rwa [hz, WithTop.coe_zero, add_zero] at this
    have h2 : k ≤ st.dist c := by
      have := hmin _ hcentry
      rwa [hz, WithTop.coe_zero, add_zero] at this
    exact le_antisymm h2 h1

end RelaxLemmas

/-- The loop measure: unvisited search-space nodes weighted by the maximum
pushes per visit, plus the queue length. -/
def measureSt (G : Graph) (s : Node) (st : SState) : Nat :=
  ((searchSpace G s).filter (fun x => decide (x ∉ st.visited))).length *
    (G.edges.length + 2) + st.queue.length

section MeasureLemmas

private lemma length_filter_ne_lt (c : Node) :
    ∀ l : List Node, c ∈ l →
      (l.filter (fun x => decide (x ≠ c))).length < l.length := by
  intro l
  induction l with
  | nil => intro h; exact absurd h (List.not_mem_nil c)
  | cons y tl ih =>
    intro h
    by_cases hyc : y = c
    · subst hyc
      rw [List.filter_cons_of_neg (by simp)]
      have := List.length_filter_le (fun x => decide (x ≠ y)) tl
      simp only [List.length_cons]
      omega
    · rcases List.mem_cons.mp h with h' | h'
      · exact absurd h'.symm hyc
      · rw [List.filter_cons_of_pos (by simp [hyc])]
        simp only [List.length_cons]
        exact Nat.succ_lt_succ (ih h')

lemma filter_snoc_lt (S vis : List Node) (c : Node) (hcS : c ∈ S)
    (hcv : c ∉ vis) :
    (S.filter (fun x => decide (x ∉ vis ++ [c]))).length + 1 ≤
      (S.filter (fun x => decide (x ∉ vis))).length := by
  have heq : S.filter (fun x => decide (x ∉ vis ++ [c])) =
      (S.filter (fun x => decide (x ∉ vis))).filter (fun x => decide (x ≠ c)) := by
    rw [List.filter_filter]
    apply List.filter_congr
    intro x _
    by_cases h1 : x ∈ vis <;> by_cases h2 : x = c <;>
      simp [h1, h2, List.mem_append]
  rw [heq]
  have hcf : c ∈ S.filter (fun x => decide (x ∉ vis)) :=
    List.mem_filter.mpr ⟨hcS, by simpa⟩
  have := length_filter_ne_lt c _ hcf
  omega

private lemma firstDedup_length : ∀ (l seen : List Node),
    (firstDedup seen l).length ≤ l.length := by
  intro l
  induction l with
  | nil => intro seen; exact le_refl _
  | cons x tl ih =>
    intro seen
    unfold firstDedup
    by_cases hx : x ∈ seen
    · rw [if_pos hx]
      exact le_trans (ih seen) (Nat.le_succ _)
    · rw [if_neg hx]
      simp only [List.length_cons]
      exact Nat.succ_le_succ (ih (x :: seen))

lemma neighbors_len_le (G : Graph) (c : Node) :
    (G.neighbors c).length ≤ G.edges.length := by
  unfold Graph.neighbors
  refine le_trans (firstDedup_length _ _) ?_
  rw [List.length_map]
  exact List.length_filter_le _ _

end MeasureLemmas

/-- Unfolding equation of `searchLoop` at positive fuel. -/
lemma searchLoop_succ (G : Graph) (ig : Bool) (pot : Node → ℚ) (useKey : Bool)
    (e : Node) (fuel : Nat) (st : SState) :
    searchLoop G ig pot useKey e (fuel + 1) st =
      match popMin st.queue with
      | none => st
      | some ((k, c), rest) =>
        if c ∈ st.visited then
          searchLoop G ig pot useKey e fuel { st with queue := rest }
        else
          let st1 : SState :=
            { st with
              queue := rest
              visited := st.visited ++ [c]
              visitedCount := st.visitedCount + 1 }
          if c = e then { st1 with success := true }
          else
            searchLoop G ig pot useKey e fuel
              ((G.neighbors c).foldl (relaxOne G ig pot useKey c k) st1) := rfl

section MainLoopSpec

variable {G : Graph} {ig : Bool} {pot : Node → ℚ} {useKey : Bool} {s e : Node}

/-- The main loop theorem: from a `LoopInv` state with enough fuel, the loop
ends in a `FinalInv` state. -/
lemma searchLoop_spec
    (hpc : ∀ u v, Passable G ig u v →
      ((pot u : ℚ) : Cost) ≤ get_best_edge_weight G u v ig + ((pot v : ℚ) : Cost))
    (huse : useKey = true → ∀ n, pot n = (0 : ℚ)) :
    ∀ (fuel : Nat) (st : SState), LoopInv G ig pot s e st →
      measureSt G s st < fuel →
      FinalInv G ig s e (searchLoop G ig pot useKey e fuel st) := by
  intro fuel
  induction fuel with
  | zero => intro st _ hm; exact absurd hm (Nat.not_lt_zero _)
  | succ f ih =>
    intro st hInv hm
    rw [searchLoop_succ]
    rcases hq : popMin st.queue with _ | ⟨⟨k, c⟩, rest⟩
    · -- queue exhausted
      have hqe : st.queue = [] := (popMin_none_iff _).mp hq
      exact { vNodup := hInv.vNodup, vCount := hInv.vCount,
              vReach := hInv.vReach, vTop := hInv.vTop,
              achieve := hInv.achieve, opt := hInv.opt,
              ends := Or.inl ⟨hInv.succFalse, hInv.eNotVis,
                loopInv_closure hInv hqe⟩ }
    · obtain ⟨hmem, hrest, hmin⟩ := popMin_spec _ _ _ hq
      have hq1 : 1 ≤ st.queue.length := by
        have : st.queue ≠ [] := by
          intro h0
          rw [h0] at hmem
          exact absurd hmem (List.not_mem_nil _)
        exact List.length_pos.mpr this
      have hrlen : rest.length = st.queue.length - 1 := by
        rw [hrest]
        exact List.length_erase_of_mem hmem
      dsimp only
      by_cases hcv : c ∈ st.visited
      · -- stale entry
        rw [if_pos hcv]
        apply ih
        · exact loopInv_stale hInv hmem hrest hcv
        · unfold measureSt at hm ⊢
          dsimp only
          omega
      · rw [if_neg hcv]
        by_cases hce : c = e
        · -- target settled: stop successfully
          subst hce
          rw [if_pos rfl]
          refine { vNodup := ?_, vCount := ?_, vReach := ?_, vTop := ?_,
                   achieve := hInv.achieve, opt := ?_, ends := ?_ }
          · exact hInv.vNodup.append (List.nodup_singleton c)
              (fun a ha hb => hcv (by rw [← List.mem_singleton.mp hb]; exact ha))
          · dsimp only
            rw [List.length_append, List.length_singleton, hInv.vCount]
          · intro z hz
            dsimp only at hz
            rw [List.mem_append, List.mem_singleton] at hz
            rcases hz with hz | rfl
            · exact hInv.vReach z hz
            · exact hInv.qReach (k, z) hmem
          · intro z hz
            dsimp only at hz
            rw [List.mem_append, List.mem_singleton] at hz
            rcases hz with hz | rfl
            · exact hInv.vTop z hz
            · exact hInv.qTop (k, z) hmem
          · intro z hz d hd
            dsimp only at hz
            rw [List.mem_append, List.mem_singleton] at hz
            rcases hz with hz | rfl
            · exact hInv.opt z hz d hd
            · exact pop_opt hInv hpc hmem hcv hmin d hd
          · refine Or.inr ⟨rfl, ?_⟩
            dsimp only
            rw [List.mem_append, List.mem_singleton]
            exact Or.inr rfl
        · -- settle c and relax its neighbors
          rw [if_neg hce]
          have hmid0 := visit_midInv hInv hpc huse hmem hrest hmin hcv hce
          have hmid := relax_fold hpc (G.neighbors c) [] _
            (fun v hv => hv) hmid0
          rw [List.nil_append] at hmid
          have hInv2 := midInv_to_loopInv hmid
            (fun v hp => passable_mem_neighbors hp)
          apply ih _ hInv2
          -- measure decreases
          have hvisEq := @relax_fold_visited G ig pot useKey c k (G.neighbors c)
            { st with
              queue := rest
              visited := st.visited ++ [c]
              visitedCount := st.visitedCount + 1 }
          have hqlen := @relax_fold_queue_len G ig pot useKey c k (G.neighbors c)
            { st with
              queue := rest
              visited := st.visited ++ [c]
              visitedCount := st.visitedCount + 1 }
          have hnb := neighbors_len_le G c
          have hcS : c ∈ searchSpace G s := hInv.qSpace (k, c) hmem
          have hfil := filter_snoc_lt (searchSpace G s) st.visited c hcS hcv
          unfold measureSt at hm ⊢
          rw [hvisEq]
          dsimp only at hqlen hm ⊢
          have hmul : ((searchSpace G s).filter
                (fun x => decide (x ∉ st.visited ++ [c]))).length *
                (G.edges.length + 2) + (G.edges.length + 2) ≤
              ((searchSpace G s).filter
                (fun x => decide (x ∉ st.visited))).length *
                (G.edges.length + 2) := by
            have := Nat.mul_le_mul_right (G.edges.length + 2) hfil
            rw [Nat.add_mul, one_mul] at this
            exact this
          omega

lemma initState_pop (s : Node) :
    popMin (initState s).queue = some (((0 : Cost), s), []) := by
  unfold initState popMin minEntry
  simp [List.erase_cons_head]

/-- Running the search with its actual fuel from the initial state ends in a
`FinalInv` state (start distinct from target; the first iteration is
unrolled because its queue entry carries priority `0.0` rather than
`0 + pot s`). -/
lemma search_spec (hw : WeightsNonneg G)
    (hpc : ∀ u v, Passable G ig u v →
      ((pot u : ℚ) : Cost) ≤ get_best_edge_weight G u v ig + ((pot v : ℚ) : Cost))
    (huse : useKey = true → ∀ n, pot n = (0 : ℚ)) (hse : s ≠ e) :
    FinalInv G ig s e
      (searchLoop G ig pot useKey e (bigFuel G s) (initState s)) := by
  have hb : bigFuel G s =
      ((searchSpace G s).length * (G.edges.length + 2) + 1) + 1 := rfl
  rw [hb, searchLoop_succ, initState_pop]
  dsimp only
  rw [if_neg (by simp [initState]), if_neg hse]
  have hsS : s ∈ searchSpace G s := by
    unfold searchSpace
    exact List.mem_append.mpr (Or.inl (List.mem_cons_self s _))
  have hmid0 : MidInv G ig pot useKey s e s (0 : Cost) []
      { initState s with
        queue := ([] : List (Cost × Node))
        visited := (initState s).visited ++ [s]
        visitedCount := (initState s).visitedCount + 1 } := by
    refine
      { qTop := fun p hp => absurd hp (List.not_mem_nil p),
        qLower := fun p hp => absurd hp (List.not_mem_nil p),
        qReach := fun p hp => absurd hp (List.not_mem_nil p),
        qSpace := fun p hp => absurd hp (List.not_mem_nil p),
        entry := ?_, vNodup := by simp [initState], vCount := by simp [initState],
        vReach := ?_, vTop := ?_, vSpace := ?_, distS := by simp [initState],
        achieve := ?_,
        settledLe := fun u _ p hp => absurd hp (List.not_mem_nil p),
        settledC := ?_, opt := ?_, relaxedOld := ?_,
        relaxedDone := fun z hz => absurd hz (List.not_mem_nil z),
        succFalse := rfl, eNotVis := ?_, cVis := by simp, kEq := ?_ }
    · intro z hz hd
      dsimp only [initState] at hz hd
      by_cases hzs : z = s
      · exact absurd (by simp [hzs]) hz
      · rw [if_neg hzs] at hd
        exact absurd rfl hd
    · intro z hz
      have : z = s := by simpa [initState] using hz
      subst this
      exact reachN_refl G ig z
    · intro z hz
      have : z = s := by simpa [initState] using hz
      subst this
      simp [initState]
    · intro z hz
      have : z = s := by simpa [initState] using hz
      subst this
      exact hsS
    · intro z hd
      dsimp only [initState] at hd ⊢
      by_cases hzs : z = s
      · subst hzs
        refine ⟨0, Reaches.refl, ?_⟩
        simp
      · rw [if_neg hzs] at hd
        exact absurd rfl hd
    · intro u hu
      have : u = s := by simpa [initState] using hu
      subst this
      exact le_refl _
    · intro z hz d hd
      have : z = s := by simpa [initState] using hz
      subst this
      have h0 : (0 : ℚ) ≤ d := reaches_cost_nonneg hw hd
      dsimp only [initState]
      rw [if_pos rfl]
      exact_mod_cast h0
    · intro u hu huc z hp
      have : u = s := by simpa [initState] using hu
      exact absurd this huc
    · intro hmem
      have : e = s := by simpa [initState] using hmem
      exact hse this.symm
    · intro _
      dsimp only [initState]
      rw [if_pos rfl]
  have hmid := relax_fold hpc (G.neighbors s) [] _ (fun v hv => hv) hmid0
  rw [List.nil_append] at hmid
  have hInv2 := midInv_to_loopInv hmid (fun v hp => passable_mem_neighbors hp)
  apply searchLoop_spec hpc huse _ _ hInv2
  -- the measure strictly under the remaining fuel
  have hvisEq := @relax_fold_visited G ig pot useKey s (0 : Cost) (G.neighbors s)
    { initState s with
      queue := ([] : List (Cost × Node))
      visited := (initState s).visited ++ [s]
      visitedCount := (initState s).visitedCount + 1 }
  have hqlen := @relax_fold_queue_len G ig pot useKey s (0 : Cost) (G.neighbors s)
    { initState s with
      queue := ([] : List (Cost × Node))
      visited := (initState s).visited ++ [s]
      visitedCount := (initState s).visitedCount + 1 }
  have hnb := neighbors_len_le G s
  have hfil := filter_snoc_lt (searchSpace G s) (initState s).visited s
    (by simpa [initState] using hsS) (by simp [initState])
  have hfull : (searchSpace G s).filter
      (fun x => decide (x ∉ (initState s).visited)) = searchSpace G s := by
    simp [initState]
  unfold measureSt
  rw [hvisEq]
  dsimp only [initState] at hqlen hfil hfull ⊢
  simp only [Nat.zero_add, List.nil_append, List.length_nil] at hqlen hfil ⊢
  rw [hfull] at hfil
  have hmul : ((searchSpace G s).filter
        (fun x => decide (x ∉ ([s] : List Node)))).length *
        (G.edges.length + 2) + (G.edges.length + 2) ≤
      (searchSpace G s).length * (G.edges.length + 2) := by
    have := Nat.mul_le_mul_right (G.edges.length + 2) hfil
    rw [Nat.add_mul, one_mul] at this
    exact this
  omega

/-- When start and target coincide, the first pop settles the target at once. -/
lemma search_self (G : Graph) (ig : Bool) (pot : Node → ℚ) (useKey : Bool)
    (s : Node) :
    searchLoop G ig pot useKey s (bigFuel G s) (initState s) =
      { initState s with
        queue := ([] : List (Cost × Node))
        visited := (initState s).visited ++ [s]
        visitedCount := (initState s).visitedCount + 1
        success := true } := by
  have hb : bigFuel G s =
      ((searchSpace G s).length * (G.edges.length + 2) + 1) + 1 := rfl
  rw [hb, searchLoop_succ, initState_pop]
  dsimp only
  rw [if_neg (by simp [initState]), if_pos rfl]

end MainLoopSpec

/-! ### Extraction lemmas -/

section ExtractLemmas

variable (G : Graph) (e : Node)

private def hStep (b n : Node) : Node :=
  if heurSq G n e < heurSq G b e then n else b

private lemma hStep_le (b n : Node) :
    heurSq G (hStep G e b n) e ≤ heurSq G b e := by
  unfold hStep
  split
  · exact le_of_lt (by assumption)
  · exact le_refl _

private lemma hStep_le_arg (b n : Node) :
    heurSq G (hStep G e b n) e ≤ heurSq G n e := by
  unfold hStep
  split
  · exact le_refl _
  · exact le_of_not_lt (by assumption)

private lemma foldl_hStep_mem (x : Node) (xs : List Node) :
    xs.foldl (hStep G e) x ∈ x :: xs := by
  induction xs generalizing x with
  | nil => exact List.mem_cons_self x []
  | cons z tl ih =>
    rw [List.foldl_cons]
    have := ih (hStep G e x z)
    rcases List.mem_cons.mp this with h | h
    · rw [h]
      unfold hStep
      split
      · exact List.mem_cons_of_mem x (List.mem_cons_self z tl)
      · exact List.mem_cons_self x _
    · exact List.mem_cons_of_mem x (List.mem_cons_of_mem z h)

private lemma foldl_hStep_le_init (xs : List Node) (x : Node) :
    heurSq G (xs.foldl (hStep G e) x) e ≤ heurSq G x e := by
  induction xs generalizing x with
  | nil => exact le_refl _
  | cons z tl ih =>
    rw [List.foldl_cons]
    exact le_trans (ih (hStep G e x z)) (hStep_le G e x z)

private lemma foldl_hStep_min (xs : List Node) (x : Node) :
    ∀ n ∈ x :: xs, heurSq G (xs.foldl (hStep G e) x) e ≤ heurSq G n e := by
  induction xs generalizing x with
  | nil =>
    intro n hn
    rcases List.mem_cons.mp hn with rfl | hn'
    · exact le_refl _
    · exact absurd hn' (List.not_mem_nil n)
  | cons z tl ih =>
    intro n hn
    rw [List.foldl_cons]
    rcases List.mem_cons.mp hn with rfl | hn'
    · exact le_trans (foldl_hStep_le_init G e tl (hStep G e n z)) (hStep_le G e n z)
    · rcases List.mem_cons.mp hn' with rfl | hn''
      · exact le_trans (foldl_hStep_le_init G e tl (hStep G e x n)) (hStep_le_arg G e x n)
      · exact ih (hStep G e x z) n (List.mem_cons_of_mem _ hn'')

private lemma minByHeur_eq_foldl (l : List Node) :
    minByHeur G e l =
      match l.insertionSort (· ≤ ·) with
      | [] => 0
      | x :: xs => xs.foldl (hStep G e) x := rfl

lemma minByHeur_mem {l : List Node} (hl : l ≠ []) : minByHeur G e l ∈ l := by
  rw [minByHeur_eq_foldl]
  rcases hs : l.insertionSort (· ≤ ·) with _ | ⟨x, xs⟩
  · exfalso
    have hperm := List.perm_insertionSort (· ≤ ·) l
    rw [hs] at hperm
    exact hl hperm.symm.eq_nil
  · have hmem := foldl_hStep_mem G e x xs
    have hperm := List.perm_insertionSort (· ≤ ·) l
    rw [hs] at hperm
    exact hperm.mem_iff.mp hmem

lemma minByHeur_min {l : List Node} :
    ∀ n ∈ l, heurSq G (minByHeur G e l) e ≤ heurSq G n e := by
  intro n hn
  rw [minByHeur_eq_foldl]
  rcases hs : l.insertionSort (· ≤ ·) with _ | ⟨x, xs⟩
  · exfalso
    have hperm := List.perm_insertionSort (· ≤ ·) l
    rw [hs] at hperm
    rw [hperm.symm.eq_nil] at hn
    exact absurd hn (List.not_mem_nil n)
  · have hperm := List.perm_insertionSort (· ≤ ·) l
    rw [hs] at hperm
    exact foldl_hStep_min G e xs x n (hperm.mem_iff.mpr hn)

lemma minByHeur_congr {l1 l2 : List Node} (h1 : l1.Nodup) (h2 : l2.Nodup)
    (hiff : ∀ x, x ∈ l1 ↔ x ∈ l2) :
    minByHeur G e l1 = minByHeur G e l2 := by
  have hperm : l1.Perm l2 := (List.perm_ext_iff_of_nodup h1 h2).mpr hiff
  have hsort : l1.insertionSort (· ≤ ·) = l2.insertionSort (· ≤ ·) :=
    List.eq_of_perm_of_sorted
      ((List.perm_insertionSort _ l1).trans
        (hperm.trans (List.perm_insertionSort _ l2).symm))
      (List.sorted_insertionSort _ l1) (List.sorted_insertionSort _ l2)
  unfold minByHeur
  rw [hsort]

lemma walkParents_head (par : Node → Option Node) (f : Nat) (c : Node) :
    (walkParents par f c).head? = some c := by
  cases f <;> rfl

lemma walkParents_ne_nil (par : Node → Option Node) (f : Nat) (c : Node) :
    walkParents par f c ≠ [] := by
  cases f <;> simp [walkParents]

end ExtractLemmas

/-- **C4.** For every nonneg-weight graph in which the target is unreachable
from the start under current blocking, `dijkstra_search` returns
`success = false`, a non-empty path ending at the visited node minimizing
the straight-line heuristic to the target (stated via the
comparison-equivalent `heurSq`, minimal over all reachable = visited
nodes), a reported cost equal to the computed shortest distance from the
start to that fallback node, and a visited count equal to the number of
nodes reachable from the start under blocking. -/
theorem dijkstra_unreachable_fallback (G : Graph) (s e : Node)
    (hw : WeightsNonneg G) (hur : ¬ ReachN G false s e) :
    (dijkstra_search G s e false).success = false ∧
    (dijkstra_search G s e false).path ≠ [] ∧
    (∃ fb, (dijkstra_search G s e false).path.getLast? = some fb ∧
      ReachN G false s fb ∧
      (∀ n, ReachN G false s n → heurSq G fb e ≤ heurSq G n e) ∧
      (∃ d : ℚ, (dijkstra_search G s e false).cost = ((d : ℚ) : Cost) ∧
        Reaches G false s fb d ∧ ∀ d' : ℚ, Reaches G false s fb d' → d ≤ d')) ∧
    (dijkstra_search G s e false).visitedCount =
      Set.ncard {n : Node | ReachN G false s n} := by
  have hse : s ≠ e := fun h => hur (h ▸ reachN_refl G false s)
  have hpc0 : ∀ u v, Passable G false u v →
      ((((fun _ => (0 : ℚ)) u : ℚ)) : Cost) ≤
        get_best_edge_weight G u v false + ((((fun _ => (0 : ℚ)) v : ℚ)) : Cost) := by
    intro u v _
    simp only [WithTop.coe_zero, add_zero]
    exact gbew_nonneg hw u v false
  have hfin := @search_spec G false (fun _ => (0 : ℚ)) true s e
    hw hpc0 (fun _ n => rfl) hse
  set st' := searchLoop G false (fun _ => (0 : ℚ)) true e (bigFuel G s)
    (initState s) with hst
  rcases hfin.ends with ⟨hsucc, _, hclo⟩ | ⟨_, hevis⟩
  case inr => exact absurd (hfin.vReach e hevis) hur
  have hsvis : s ∈ st'.visited := hclo s (reachN_refl G false s)
  have hnev : st'.visited ≠ [] := by
    intro h0
    rw [h0] at hsvis
    exact (List.not_mem_nil s) hsvis
  have hex : dijkstra_search G s e false = extractResult G e st' := rfl
  rw [hex]
  unfold extractResult
  rw [if_neg (by rw [List.isEmpty_iff]; exact hnev)]
  dsimp only
  rw [hsucc, if_neg Bool.false_ne_true]
  have hfbmem : minByHeur G e st'.visited ∈ st'.visited := minByHeur_mem G e hnev
  refine ⟨rfl, ?_, ⟨minByHeur G e st'.visited, ?_, ?_, ?_, ?_⟩, ?_⟩
  · -- non-empty path
    intro h0
    unfold _reconstruct_path at h0
    rw [List.reverse_eq_nil_iff] at h0
    exact walkParents_ne_nil _ _ _ h0
  · -- the path ends at the fallback node
    unfold _reconstruct_path
    rw [List.getLast?_reverse]
    exact walkParents_head _ _ _
  · exact hfin.vReach _ hfbmem
  · intro n hn
    exact minByHeur_min G e n (hclo n hn)
  · -- reported cost is the computed shortest distance to the fallback node
    have hTop := hfin.vTop _ hfbmem
    obtain ⟨d, hwalk, hdeq⟩ := hfin.achieve _ hTop
    refine ⟨d, hdeq, hwalk, ?_⟩
    intro d' hd'
    have hle := hfin.opt _ hfbmem d' hd'
    rw [hdeq] at hle
    exact_mod_cast hle
  · -- visited count = number of reachable nodes
    have hset : {n : Node | ReachN G false s n} =
        (st'.visited.toFinset : Set Node) := by
      ext n
      simp only [Set.mem_setOf_eq, Finset.coe_sort_coe, Finset.mem_coe,
        List.mem_toFinset]
      exact ⟨fun h => hclo n h, fun h => hfin.vReach n h⟩
    rw [hset, Set.ncard_coe_Finset, List.toFinset_card_of_nodup hfin.vNodup]
    exact hfin.vCount

/-- The spec's 4-node square `0–1–2–3–0` (§8) with the two edges joining the
`{0,1}` side to the `{2,3}` side blocked, so that 2 is unreachable from 0. -/
def c4Graph : Graph :=
  ⟨[0, 1, 2, 3], fun _ => some 0, fun _ => some 0,
   [⟨0, 1, 0, ⟨none, some 1, none, none⟩⟩,
    ⟨1, 0, 0, ⟨none, some 1, none, none⟩⟩,
    ⟨1, 2, 0, ⟨none, some 1, some true, none⟩⟩,
    ⟨2, 1, 0, ⟨none, some 1, some true, none⟩⟩,
    ⟨2, 3, 0, ⟨none, some 1, none, none⟩⟩,
    ⟨3, 2, 0, ⟨none, some 1, none, none⟩⟩,
    ⟨3, 0, 0, ⟨none, some 1, some true, none⟩⟩,
    ⟨0, 3, 0, ⟨none, some 1, some true, none⟩⟩]⟩

lemma c4_reach_side : ∀ n, ReachN c4Graph false 0 n → n = 0 ∨ n = 1 := by
  rintro n ⟨d, hd⟩
  induction hd with
  | refl => exact Or.inl rfl
  | @snoc u v d' w' hr hgb ih =>
    have hp : Passable c4Graph false u v := by
      unfold Passable
      rw [hgb]
      exact WithTop.coe_ne_top
    have hnb := passable_mem_neighbors hp
    rcases ih with rfl | rfl
    · have hv : v ∈ ([1, 3] : List Node) := hnb
      rw [List.mem_cons, List.mem_singleton] at hv
      rcases hv with rfl | rfl
      · exact Or.inr rfl
      · exact absurd
          (show get_best_edge_weight c4Graph 0 3 false = ⊤ by decide) hp
    · have hv : v ∈ ([0, 2] : List Node) := hnb
      rw [List.mem_cons, List.mem_singleton] at hv
      rcases hv with rfl | rfl
      · exact Or.inl rfl
      · exact absurd
          (show get_best_edge_weight c4Graph 1 2 false = ⊤ by decide) hp

lemma c4_unreachable : ¬ ReachN c4Graph false 0 2 := by
  intro h
  rcases c4_reach_side 2 h with h' | h' <;> exact absurd h' (by decide)

/-- Witness for C4 at the spec's square scenario: routing `0 → 2` with the
crossing edges blocked. -/
theorem dijkstra_unreachable_fallback_witness :
    (dijkstra_search c4Graph 0 2 false).success = false ∧
    (dijkstra_search c4Graph 0 2 false).path ≠ [] ∧
    (∃ fb, (dijkstra_search c4Graph 0 2 false).path.getLast? = some fb ∧
      ReachN c4Graph false 0 fb ∧
      (∀ n, ReachN c4Graph false 0 n → heurSq c4Graph fb 2 ≤ heurSq c4Graph n 2) ∧
      (∃ d : ℚ, (dijkstra_search c4Graph 0 2 false).cost = ((d : ℚ) : Cost) ∧
        Reaches c4Graph false 0 fb d ∧
        ∀ d' : ℚ, Reaches c4Graph false 0 fb d' → d ≤ d')) ∧
    (dijkstra_search c4Graph 0 2 false).visitedCount =
      Set.ncard {n : Node | ReachN c4Graph false 0 n} :=
  dijkstra_unreachable_fallback c4Graph 0 2 (by unfold WeightsNonneg; decide) c4_unreachable

/-- Witness for the amended C3 theorem: the edgeless two-node graph, start 0,
target 1. -/
theorem dijkstra_no_passable_start_witness :
    (∀ v, get_best_edge_weight c3Graph 0 v false = ⊤) ∧ (0 : Node) ≠ 1 ∧
      dijkstra_search c3Graph 0 1 false = ⟨[0], 1, (0 : Cost), false⟩ :=
  ⟨fun v => rfl, by decide,
   dijkstra_no_passable_start c3Graph 0 1 false (fun v => rfl) (by decide)⟩

lemma extract_cost (G : Graph) (e : Node) (st : SState) (hne : st.visited ≠ []) :
    (extractResult G e st).cost =
      st.dist (if st.success then e else minByHeur G e st.visited) := by
  unfold extractResult
  rw [if_neg (by rw [List.isEmpty_iff]; exact hne)]

/-- **C5.** For every nonneg-weight graph with no blocked edges and a
consistent heuristic `h` (the model's stand-in for the code's planar
Euclidean distance scaled by 111000, whose square-root values are not
rational — consistency is the claim's own premise), `astar_search` and
`dijkstra_search` return results of equal total cost. -/
theorem astar_dijkstra_equal_cost (G : Graph) (h : Node → ℚ) (s e : Node)
    (hnb : ∀ er ∈ G.edges, er.attrs.blockedTruthy = false)
    (hw : WeightsNonneg G)
    (hcons : ∀ u v, Passable G false u v →
      ((h u : ℚ) : Cost) ≤ get_best_edge_weight G u v false + ((h v : ℚ) : Cost)) :
    (astar_search G h s e false).cost = (dijkstra_search G s e false).cost := by
  by_cases hse : s = e
  · subst hse
    unfold astar_search dijkstra_search
    rw [search_self, search_self]
  · have hpc0 : ∀ u v, Passable G false u v →
        ((((fun _ => (0 : ℚ)) u : ℚ)) : Cost) ≤
          get_best_edge_weight G u v false + ((((fun _ => (0 : ℚ)) v : ℚ)) : Cost) := by
      intro u v _
      simp only [WithTop.coe_zero, add_zero]
      exact gbew_nonneg hw u v false
    have hfinD := @search_spec G false (fun _ => (0 : ℚ)) true s e
      hw hpc0 (fun _ n => rfl) hse
    have hfinA := @search_spec G false h false s e hw hcons
      (fun hk => absurd hk Bool.false_ne_true) hse
    set stD := searchLoop G false (fun _ => (0 : ℚ)) true e (bigFuel G s)
      (initState s) with hstD
    set stA := searchLoop G false h false e (bigFuel G s) (initState s) with hstA
    have hexD : dijkstra_search G s e false = extractResult G e stD := rfl
    have hexA : astar_search G h s e false = extractResult G e stA := rfl
    rw [hexD, hexA]
    by_cases hre : ReachN G false s e
    · -- target reachable: both succeed and report the shortest distance to `e`
      have hendD : stD.success = true ∧ e ∈ stD.visited := by
        rcases hfinD.ends with ⟨_, heNot, hclo⟩ | hr
        · exact absurd (hclo e hre) heNot
        · exact hr
      have hendA : stA.success = true ∧ e ∈ stA.visited := by
        rcases hfinA.ends with ⟨_, heNot, hclo⟩ | hr
        · exact absurd (hclo e hre) heNot
        · exact hr
      have hneD : stD.visited ≠ [] := by
        intro h0
        rw [h0] at hendD
        exact (List.not_mem_nil e) hendD.2
      have hneA : stA.visited ≠ [] := by
        intro h0
        rw [h0] at hendA
        exact (List.not_mem_nil e) hendA.2
      rw [extract_cost G e stD hneD, extract_cost G e stA hneA,
        hendD.1, hendA.1, if_pos rfl, if_pos rfl]
      obtain ⟨dA, hwA, heA⟩ := hfinA.achieve e (hfinA.vTop e hendA.2)
      obtain ⟨dD, hwD, heD⟩ := hfinD.achieve e (hfinD.vTop e hendD.2)
      have h1 := hfinA.opt e hendA.2 dD hwD
      have h2 := hfinD.opt e hendD.2 dA hwA
      rw [heA] at h1
      rw [heD] at h2
      rw [heA, heD]
      exact le_antisymm h1 h2
    · -- target unreachable: both fall back, over the same visited set
      have hendD : stD.success = false ∧ e ∉ stD.visited ∧
          ∀ v, ReachN G false s v → v ∈ stD.visited := by
        rcases hfinD.ends with hl | ⟨_, hevis⟩
        · exact hl
        · exact absurd (hfinD.vReach e hevis) hre
      have hendA : stA.success = false ∧ e ∉ stA.visited ∧
          ∀ v, ReachN G false s v → v ∈ stA.visited := by
        rcases hfinA.ends with hl | ⟨_, hevis⟩
        · exact hl
        · exact absurd (hfinA.vReach e hevis) hre
      have hneD : stD.visited ≠ [] := by
        intro h0
        have := hendD.2.2 s (reachN_refl G false s)
        rw [h0] at this
        exact (List.not_mem_nil s) this
      have hneA : stA.visited ≠ [] := by
        intro h0
        have := hendA.2.2 s (reachN_refl G false s)
        rw [h0] at this
        exact (List.not_mem_nil s) this
      have hmemiff : ∀ x, x ∈ stA.visited ↔ x ∈ stD.visited := by
        intro x
        exact ⟨fun hx => hendD.2.2 x (hfinA.vReach x hx),
               fun hx => hendA.2.2 x (hfinD.vReach x hx)⟩
      have hfb : minByHeur G e stA.visited = minByHeur G e stD.visited :=
        minByHeur_congr G e hfinA.vNodup hfinD.vNodup hmemiff
      rw [extract_cost G e stD hneD, extract_cost G e stA hneA,
        hendD.1, hendA.1, if_neg Bool.false_ne_true, if_neg Bool.false_ne_true,
        hfb]
      have hfbD : minByHeur G e stD.visited ∈ stD.visited := minByHeur_mem G e hneD
      have hfbA : minByHeur G e stD.visited ∈ stA.visited :=
        (hmemiff _).mpr hfbD
      obtain ⟨dA, hwA, heA⟩ := hfinA.achieve _ (hfinA.vTop _ hfbA)
      obtain ⟨dD, hwD, heD⟩ := hfinD.achieve _ (hfinD.vTop _ hfbD)
      have h1 := hfinA.opt _ hfbA dD hwD
      have h2 := hfinD.opt _ hfbD dA hwA
      rw [heA] at h1
      rw [heD] at h2
      rw [heA, heD]
      exact le_antisymm h1 h2

/-- Two-node graph with one open edge each way for the C5 witness. -/
def c5Graph : Graph :=
  ⟨[0, 1], fun _ => some 0, fun _ => some 0,
   [⟨0, 1, 0, ⟨none, some 1, none, none⟩⟩,
    ⟨1, 0, 0, ⟨none, some 1, none, none⟩⟩]⟩

/-- Witness for C5 at a concrete graph with the zero heuristic (trivially
consistent). -/
theorem astar_dijkstra_equal_cost_witness :
    (astar_search c5Graph (fun _ => 0) 0 1 false).cost =
      (dijkstra_search c5Graph 0 1 false).cost :=
  astar_dijkstra_equal_cost c5Graph (fun _ => 0) 0 1 (by decide)
    (by unfold WeightsNonneg; decide)
    (fun u v _ => by
      simp only [WithTop.coe_zero, add_zero]
      exact gbew_nonneg (by unfold WeightsNonneg; decide) u v false)

end RouteCore
